import Mathlib

/-!
Verification of the response extraction and salvage pipeline of the
bank-statement PDF extraction service (src/server.js).

The development shallowly embeds:
  * the JSON value space exchanged with the upstream service (`JsVal`),
  * the behaviour of the JavaScript builtin JSON.parse on such texts
    (`parseJson`, a fuel-based recursive-descent parser over lists of
    characters following the RFC 8259 grammar that JSON.parse implements;
    numbers keep their source lexeme, which preserves strictly more
    information than the IEEE double JSON.parse would produce and is
    irrelevant to the claims proved here),
  * the recursive text-piece collector `collectTextPieces` (server.js:34-55),
  * the salvage strategy chain and the /process-pdf handler logic past the
    transport layer (server.js:126-187), and
  * the outer request handler including the missing-file and missing-key
    short circuits (server.js:58-68).

JavaScript specific behaviours that the source relies on are modelled
explicitly: the falsiness check `if (!obj)` (which drops empty strings,
`null`, `false` and numeric zero), the case-insensitive substring regex
/text|content|message|output/i (ASCII case folding suffices for every
claim), `Object.keys` insertion order (the field list order), and
`indexOf` / `lastIndexOf` / `slice` on the joined text.
-/

/-- A JavaScript/JSON value as produced by JSON.parse of the upstream
response body.  Numbers keep their source lexeme. -/
inductive JsVal where
  | null : JsVal
  | bool : Bool → JsVal
  | num : String → JsVal
  | str : String → JsVal
  | arr : List JsVal → JsVal
  | obj : List (String × JsVal) → JsVal
deriving Repr

/-- JSON whitespace, exactly the four characters JSON.parse skips. -/
def wsChar (c : Char) : Bool :=
  c = ' ' || c = '\t' || c = '\n' || c = '\r'

/-- Skip leading JSON whitespace. -/
def skipWs : List Char → List Char
  | [] => []
  | c :: cs => if wsChar c then skipWs cs else c :: cs

/-- All characters are JSON whitespace. -/
def allWs (cs : List Char) : Bool := cs.all wsChar

/-- Hexadecimal digit test for \u escapes. -/
def isHexDigit (c : Char) : Bool :=
  c.isDigit || ('a' ≤ c && c ≤ 'f') || ('A' ≤ c && c ≤ 'F')

/-- Hexadecimal digit value. -/
def hexVal (c : Char) : Nat :=
  if c.isDigit then c.toNat - 48
  else if 'a' ≤ c && c ≤ 'f' then c.toNat - 87
  else if 'A' ≤ c && c ≤ 'F' then c.toNat - 55
  else 0

/-- Single-character string escapes accepted by JSON.parse. -/
def escChar (c : Char) : Option Char :=
  if c = '"' then some '"'
  else if c = '\\' then some '\\'
  else if c = '/' then some '/'
  else if c = 'b' then some (Char.ofNat 8)
  else if c = 'f' then some (Char.ofNat 12)
  else if c = 'n' then some '\n'
  else if c = 'r' then some '\r'
  else if c = 't' then some '\t'
  else none

/-- Body of a JSON string literal, entered after the opening quote.
Returns the decoded string and the rest of the input after the closing
quote.  Raw control characters are rejected, as JSON.parse does.
(Code points from \u escapes that are not valid scalar values collapse
to Char.ofNat's default; no claim inspects such strings.) -/
def parseStrBody : List Char → String → Option (String × List Char)
  | [], _ => none
  | c :: cs, acc =>
    if c = '"' then some (acc, cs)
    else if c = '\\' then
      match cs with
      | [] => none
      | e :: cs2 =>
        if e = 'u' then
          match cs2 with
          | h1 :: h2 :: h3 :: h4 :: cs3 =>
            if isHexDigit h1 && isHexDigit h2 && isHexDigit h3 && isHexDigit h4 then
              parseStrBody cs3
                (acc.push (Char.ofNat
                  (hexVal h1 * 4096 + hexVal h2 * 256 + hexVal h3 * 16 + hexVal h4)))
            else none
          | _ => none
        else
          match escChar e with
          | some ec => parseStrBody cs2 (acc.push ec)
          | none => none
    else if c.toNat < 32 then none
    else parseStrBody cs (acc.push c)

/-- Split the longest run of leading decimal digits. -/
def splitDigits : List Char → List Char × List Char
  | [] => ([], [])
  | c :: cs =>
    if c.isDigit then
      let p := splitDigits cs
      (c :: p.1, p.2)
    else ([], c :: cs)

/-- Integer part of a JSON number: a single 0, or a nonzero digit followed
by digits (a leading 0 is never followed by further digits, matching the
JSON grammar's int production). -/
def intPart : List Char → Option (List Char × List Char)
  | [] => none
  | c :: cs =>
    if c = '0' then some ([c], cs)
    else if c.isDigit then
      let p := splitDigits cs
      some (c :: p.1, p.2)
    else none

/-- Optional fraction part: a dot must be followed by at least one digit. -/
def fracPart : List Char → Option (List Char × List Char)
  | [] => some ([], [])
  | c :: cs =>
    if c = '.' then
      match splitDigits cs with
      | ([], _) => none
      | (ds, r) => some (c :: ds, r)
    else some ([], c :: cs)

/-- Optional exponent part: e or E, an optional sign, then digits. -/
def expPart : List Char → Option (List Char × List Char)
  | [] => some ([], [])
  | c :: cs =>
    if c = 'e' || c = 'E' then
      match cs with
      | [] => none
      | s :: cs2 =>
        if s = '+' || s = '-' then
          match splitDigits cs2 with
          | ([], _) => none
          | (ds, r) => some (c :: s :: ds, r)
        else
          match splitDigits cs with
          | ([], _) => none
          | (ds, r) => some (c :: ds, r)
    else some ([], c :: cs)

/-- A JSON number token: optional minus sign, integer part, optional
fraction, optional exponent.  The lexeme is kept as the value. -/
def parseNum (cs : List Char) : Option (JsVal × List Char) :=
  match cs with
  | [] => none
  | c :: cs0 =>
    let sgn : List Char := if c = '-' then [c] else []
    let cs1 : List Char := if c = '-' then cs0 else c :: cs0
    match intPart cs1 with
    | none => none
    | some (ip, cs2) =>
      match fracPart cs2 with
      | none => none
      | some (fp, cs3) =>
        match expPart cs3 with
        | none => none
        | some (ep, cs4) =>
          some (JsVal.num (String.mk (sgn ++ ip ++ fp ++ ep)), cs4)

mutual

/-- Recursive-descent JSON value parser.  The first argument is fuel; a
fuel of input length + 1 always suffices (proved below), and every
recursive call passes a strictly shorter input together with fuel one
less. -/
def parseValue : Nat → List Char → Option (JsVal × List Char)
  | 0, _ => none
  | n + 1, cs =>
    match cs with
    | [] => none
    | c :: rest =>
      if c = '{' then
        match skipWs rest with
        | [] => none
        | c2 :: r2 =>
          if c2 = '}' then some (JsVal.obj [], r2)
          else if c2 = '"' then
            match parseMember n r2 with
            | none => none
            | some (kv, r3) =>
              match parseObjTail n r3 with
              | none => none
              | some (ms, r4) => some (JsVal.obj (kv :: ms), r4)
          else none
      else if c = '[' then
        match skipWs rest with
        | [] => none
        | c2 :: r2 =>
          if c2 = ']' then some (JsVal.arr [], r2)
          else
            match parseValue n (c2 :: r2) with
            | none => none
            | some (v, r3) =>
              match parseArrTail n r3 with
              | none => none
              | some (vs, r4) => some (JsVal.arr (v :: vs), r4)
      else if c = '"' then
        match parseStrBody rest (String.mk []) with
        | none => none
        | some (s, r2) => some (JsVal.str s, r2)
      else if c = 't' then
        if rest.take 3 = ['r', 'u', 'e'] then some (JsVal.bool true, rest.drop 3) else none
      else if c = 'f' then
        if rest.take 4 = ['a', 'l', 's', 'e'] then some (JsVal.bool false, rest.drop 4) else none
      else if c = 'n' then
        if rest.take 3 = ['u', 'l', 'l'] then some (JsVal.null, rest.drop 3) else none
      else parseNum (c :: rest)

/-- One object member: the key (entered after its opening quote), a
colon, and a value. -/
def parseMember : Nat → List Char → Option ((String × JsVal) × List Char)
  | 0, _ => none
  | n + 1, cs =>
    match parseStrBody cs (String.mk []) with
    | none => none
    | some (k, r1) =>
      match skipWs r1 with
      | [] => none
      | c2 :: r2 =>
        if c2 = ':' then
          match parseValue n (skipWs r2) with
          | none => none
          | some (v, r3) => some ((k, v), r3)
        else none

/-- Remaining object members after a parsed member: a closing brace, or a
comma followed by another member. -/
def parseObjTail : Nat → List Char → Option (List (String × JsVal) × List Char)
  | 0, _ => none
  | n + 1, cs =>
    match skipWs cs with
    | [] => none
    | c2 :: r2 =>
      if c2 = '}' then some ([], r2)
      else if c2 = ',' then
        match skipWs r2 with
        | [] => none
        | c3 :: r3 =>
          if c3 = '"' then
            match parseMember n r3 with
            | none => none
            | some (kv, r4) =>
              match parseObjTail n r4 with
              | none => none
              | some (ms, r5) => some (kv :: ms, r5)
          else none
      else none

/-- Remaining array elements after a parsed element: a closing bracket, or
a comma followed by another element. -/
def parseArrTail : Nat → List Char → Option (List JsVal × List Char)
  | 0, _ => none
  | n + 1, cs =>
    match skipWs cs with
    | [] => none
    | c2 :: r2 =>
      if c2 = ']' then some ([], r2)
      else if c2 = ',' then
        match parseValue n (skipWs r2) with
        | none => none
        | some (v, r3) =>
          match parseArrTail n r3 with
          | none => none
          | some (vs, r4) => some (v :: vs, r4)
      else none

end

/-- JSON.parse on a list of characters: skip leading whitespace, parse one
value, and require that only whitespace remains. -/
def parseJsonL (cs : List Char) : Option JsVal :=
  match parseValue (cs.length + 1) (skipWs cs) with
  | none => none
  | some (v, rest) => if skipWs rest = [] then some v else none

/-- JSON.parse on a string. -/
def parseJson (s : String) : Option JsVal := parseJsonL s.data

/-- ASCII lower-casing of one character. -/
def lowerCh (c : Char) : Char :=
  if 'A' ≤ c && c ≤ 'Z' then Char.ofNat (c.toNat + 32) else c

/-- ASCII-case-insensitive substring test; `needle` is given in lower
case.  Models the /i regex flag for the ASCII key names at issue. -/
def containsCI (hay needle : String) : Bool :=
  ((hay.data.map lowerCh).tails).any (fun t => needle.data.isPrefixOf t)

/-- The "looks like generated text" key heuristic of server.js:48, the
regex /text|content|message|output/i tested against a key name. -/
def keyMatches (k : String) : Bool :=
  containsCI k ("text") || containsCI k ("content") ||
    containsCI k ("message") || containsCI k ("output")

mutual

/-- The recursive collector of server.js:34-55.  `out` is the JavaScript
accumulator array; pushes append on the right.  A string input is pushed
unless it is empty (empty strings are falsy, so `if (!obj) return out`
drops them); `null`, booleans and numbers either fail the falsiness test
or fall through every typeof branch, and contribute nothing.  In a keyed
mapping, a string value under a key matching the heuristic is pushed, and
every value is recursed into unconditionally — so a matching key's string
value is pushed a second time by the recursion. -/
def collectTextPieces : JsVal → List String → List String
  | JsVal.null, out => out
  | JsVal.bool _, out => out
  | JsVal.num _, out => out
  | JsVal.str s, out => if s = "" then out else out ++ [s]
  | JsVal.arr xs, out => collectFromArr xs out
  | JsVal.obj kvs, out => collectFromObj kvs out

/-- Collector loop over array elements, in order. -/
def collectFromArr : List JsVal → List String → List String
  | [], out => out
  | v :: vs, out => collectFromArr vs (collectTextPieces v out)

/-- Collector loop over object entries, in insertion order. -/
def collectFromObj : List (String × JsVal) → List String → List String
  | [], out => out
  | (k, v) :: kvs, out =>
    let out1 :=
      match v with
      | JsVal.str s => if keyMatches k then out ++ [s] else out
      | _ => out
    collectFromObj kvs (collectTextPieces v out1)

end

/-- A JSON number lexeme denotes zero exactly when every digit of its
mantissa is 0.  (Extreme exponents that under- or overflow an IEEE double
are not modelled; no claim involves them.) -/
def numIsZeroLex (lit : String) : Bool :=
  ((lit.data.takeWhile (fun c => !(c = 'e' || c = 'E'))).filter
    (fun c => c.isDigit)).all (fun c => c = '0')

/-- JavaScript truthiness of a JSON-derived value, as used by
`if (!candidate)` and the `||` chain for usage metadata. -/
def jsTruthy : JsVal → Bool
  | JsVal.null => false
  | JsVal.bool b => b
  | JsVal.str s => !(s = "")
  | JsVal.num lit => !(numIsZeroLex lit)
  | JsVal.arr _ => true
  | JsVal.obj _ => true

/-- Property access `v?.[k]` on a JSON-derived value: objects look keys up
(JSON.parse keeps the last duplicate, so lookup scans from the right);
everything else has no such property. -/
def jget (v : JsVal) (k : String) : Option JsVal :=
  match v with
  | JsVal.obj kvs => (kvs.reverse.find? (fun kv => kv.1 = k)).map (fun kv => kv.2)
  | _ => none

/-- Index access `v?.[0]`: first array element, first character of a
string, or the "0" property of an object. -/
def jindexZero (v : JsVal) : Option JsVal :=
  match v with
  | JsVal.arr xs => xs.head?
  | JsVal.str s =>
    match s.data with
    | [] => none
    | c :: _ => some (JsVal.str (String.mk [c]))
  | JsVal.obj kvs => jget (JsVal.obj kvs) ("0")
  | _ => none

/-- `response.data?.candidates?.[0]` (server.js:126). -/
def getCandidate (d : JsVal) : Option JsVal :=
  match jget d ("candidates") with
  | none => none
  | some cs => jindexZero cs

/-- Quote a string as a JSON string literal with the standard escapes. -/
def quoteStr (s : String) : String :=
  "\"" ++ String.mk (s.data.flatMap (fun c =>
    if c = '"' then ['\\', '"']
    else if c = '\\' then ['\\', '\\']
    else if c = '\n' then ['\\', 'n']
    else if c = '\r' then ['\\', 'r']
    else if c = '\t' then ['\\', 't']
    else [c])) ++ "\""

mutual

/-- JSON.stringify on a JSON-derived value (used only for the bounded
candidate preview; numbers print their lexeme). -/
def stringify : JsVal → String
  | JsVal.null => "null"
  | JsVal.bool true => "true"
  | JsVal.bool false => "false"
  | JsVal.num lit => lit
  | JsVal.str s => quoteStr s
  | JsVal.arr xs => "[" ++ stringifyArr xs ++ "]"
  | JsVal.obj kvs => "\x7b" ++ stringifyObj kvs ++ "\x7d"

/-- Comma-separated serialization of array elements. -/
def stringifyArr : List JsVal → String
  | [] => ""
  | [v] => stringify v
  | v :: vs => stringify v ++ "," ++ stringifyArr vs

/-- Comma-separated serialization of object entries. -/
def stringifyObj : List (String × JsVal) → String
  | [] => ""
  | [(k, v)] => quoteStr k ++ ":" ++ stringify v
  | (k, v) :: kvs => quoteStr k ++ ":" ++ stringify v ++ "," ++ stringifyObj kvs

end

/-- First-truthy choice, the JavaScript `a || b` on possibly-absent
values (absence and falsy values fall through). -/
def truthyOr (a b : Option JsVal) : Option JsVal :=
  match a with
  | some u => if jsTruthy u then some u else b
  | none => b

/-- `response.data?.usageMetadata || response.data?.usage || null`
(server.js:141); `none` stands for the final null. -/
def usageOf (d : JsVal) : Option JsVal :=
  truthyOr (jget d ("usageMetadata")) (truthyOr (jget d ("usage")) none)

/-- Index of the first occurrence of a character, `String.indexOf`. -/
def firstIdxOf (ch : Char) : List Char → Option Nat
  | [] => none
  | c :: cs => if c = ch then some 0 else (firstIdxOf ch cs).map (fun i => i + 1)

/-- Index of the last occurrence of a character, `String.lastIndexOf`. -/
def lastIdxOf (ch : Char) (cs : List Char) : Option Nat :=
  match firstIdxOf ch cs.reverse with
  | none => none
  | some i => some (cs.length - 1 - i)

/-- `text.slice(a, b)` for 0 ≤ a ≤ b. -/
def sliceL (a b : Nat) (cs : List Char) : List Char := (cs.drop a).take (b - a)

/-- `text.trim()` (restricted to the JSON whitespace characters; the
JavaScript method also strips exotic Unicode spaces, which no claim
involves). -/
def jsTrim (cs : List Char) : List Char :=
  ((cs.dropWhile (fun c => wsChar c)).reverse.dropWhile (fun c => wsChar c)).reverse

/-- `textPieces.join('\n')`. -/
def joinPieces (ps : List String) : List Char :=
  (String.intercalate "\n" ps).data

/-- Abstraction of the message of the exception thrown by the first
(direct) JSON.parse attempt on a text; V8's exact wording is opaque, but
the handler stores the message from the direct attempt on the joined
text, so the model makes it a function of that text. -/
def parseErrorMessage (t : List Char) : String :=
  "Unexpected token in JSON input of length " ++ toString t.length

/-- The salvage chain of server.js:144-176, exactly as the handler runs
it: direct parse of the joined text; on failure, if a first '{' exists
and the last '}' strictly follows it, parse of the inclusive slice; on
failure again, if the last '}' sits at an index greater than zero, parse
of the prefix through it.  Returns the first success. -/
def salvage (t : List Char) : Option JsVal :=
  match parseJsonL t with
  | some v => some v
  | none =>
    let braceTry :=
      match firstIdxOf '{' t, lastIdxOf '}' t with
      | some fb, some lb =>
        if fb < lb then parseJsonL (sliceL fb (lb + 1) t) else none
      | _, _ => none
    match braceTry with
    | some v => some v
    | none =>
      match lastIdxOf '}' t with
      | some lc => if 0 < lc then parseJsonL (t.take (lc + 1)) else none
      | none => none

/-- Outcome of the handler after a successful transport exchange
(server.js:126-187). -/
inductive HandlerResult where
  | ok : JsVal → HandlerResult
  | noCandidate : JsVal → HandlerResult
  | salvageExhausted : String → List Char → Nat → Option JsVal → List Char → HandlerResult

/-- The salvageExhausted fields are, in order: the direct parse-error
message, the raw preview (first 32000 characters of the joined text),
the collected piece count, the usage metadata, and the candidate preview
(first 32000 characters of the serialized candidate). -/
def isSalvageExhausted : HandlerResult → Bool
  | HandlerResult.salvageExhausted _ _ _ _ _ => true
  | _ => false

/-- Discriminator for the success branch. -/
def isOkResult : HandlerResult → Bool
  | HandlerResult.ok _ => true
  | _ => false

/-- The /process-pdf handler from candidate selection onward
(server.js:126-187): select `candidates[0]`, fail when it is absent or
falsy, collect text pieces from the candidate and then from the whole
payload into the same array, join with newlines and trim, run the
salvage chain, and on exhaustion build the diagnostic failure body. -/
def handleUpstream (d : JsVal) : HandlerResult :=
  match getCandidate d with
  | none => HandlerResult.noCandidate d
  | some c =>
    if !(jsTruthy c) then HandlerResult.noCandidate d
    else
      let pieces := collectTextPieces d (collectTextPieces c [])
      let joined := jsTrim (joinPieces pieces)
      match salvage joined with
      | some v => HandlerResult.ok v
      | none =>
        HandlerResult.salvageExhausted (parseErrorMessage joined)
          (joined.take 32000) pieces.length (usageOf d)
          ((stringify c).data.take 32000)

/-- An HTTP response as the handler produces it: a status code and a JSON
body. -/
structure HttpResponse where
  status : Nat
  body : JsVal
deriving Repr

/-- The transport-level outcome of the axios call: parsed response data,
or a failure carrying the error message and the upstream detail payload
when present. -/
inductive TransportOutcome where
  | success : JsVal → TransportOutcome
  | failure : String → Option JsVal → TransportOutcome

/-- Map a post-transport handler result onto the HTTP responses of
server.js:129, 147/159/172 and 179-186. -/
def renderResult : HandlerResult → HttpResponse
  | HandlerResult.ok v => { status := 200, body := v }
  | HandlerResult.noCandidate d =>
    { status := 500
      body := JsVal.obj [("error", JsVal.str ("No candidate returned from Gemini")),
                         ("rawResponse", d)] }
  | HandlerResult.salvageExhausted msg raw n usage cand =>
    { status := 500
      body := JsVal.obj [("error", JsVal.str ("Failed to parse JSON from Gemini response")),
                         ("message", JsVal.str msg),
                         ("rawPreview", JsVal.str (String.mk raw)),
                         ("piecesCollected", JsVal.num (toString n)),
                         ("usageMetadata", usage.getD JsVal.null),
                         ("candidatePreview", JsVal.str (String.mk cand))] }

/-- The /process-pdf request handler (server.js:58-196) as a pure
function of the uploaded file, the configured API key, and the transport
outcome of the one upstream call.  When no file is uploaded the handler
returns 400 before anything else; the transport argument is unused on
that path, which is the pure-function rendering of "no upstream call is
made". -/
def processPdf (file : Option (List Nat)) (apiKey : Option String)
    (transport : TransportOutcome) : HttpResponse :=
  match file with
  | none =>
    { status := 400, body := JsVal.obj [("error", JsVal.str ("No PDF file uploaded."))] }
  | some _ =>
    match apiKey with
    | none =>
      { status := 500
        body := JsVal.obj [("error", JsVal.str ("GEMINI_API_KEY not set in .env"))] }
    | some _ =>
      match transport with
      | TransportOutcome.failure msg detail =>
        { status := 500
          body := JsVal.obj [("error", JsVal.str ("Failed to process PDF with Gemini AI.")),
                             ("detail", detail.getD (JsVal.str msg))] }
      | TransportOutcome.success d => renderResult (handleUpstream d)

/-- Strategy 1 of the spec's salvage description: direct parse of the
full text. -/
def directStrategy (t : List Char) : Option JsVal := parseJsonL t

/-- Strategy 2: if a first '{' exists and the last '}' strictly follows
it, parse the inclusive slice between them. -/
def outerBraceStrategy (t : List Char) : Option JsVal :=
  match firstIdxOf '{' t, lastIdxOf '}' t with
  | some fb, some lb =>
    if fb < lb then parseJsonL (sliceL fb (lb + 1) t) else none
  | _, _ => none

/-- Strategy 3: if the last '}' sits at an index greater than zero, parse
the prefix up to and including it. -/
def lastCloseStrategy (t : List Char) : Option JsVal :=
  match lastIdxOf '}' t with
  | some lc => if 0 < lc then parseJsonL (t.take (lc + 1)) else none
  | none => none

/-- Run strategies in order, returning the first success and attempting
no later strategy after a success (the spec's strategy-chain wording). -/
def firstSuccess : List (List Char → Option JsVal) → List Char → Option JsVal
  | [], _ => none
  | f :: fs, t =>
    match f t with
    | some v => some v
    | none => firstSuccess fs t

/-- The salvage chain with the third (last-closing-brace) strategy
removed, for the redundancy claim. -/
def salvageNoThird (t : List Char) : Option JsVal :=
  match parseJsonL t with
  | some v => some v
  | none =>
    match firstIdxOf '{' t, lastIdxOf '}' t with
    | some fb, some lb =>
      if fb < lb then parseJsonL (sliceL fb (lb + 1) t) else none
    | _, _ => none

mutual

/-- `s` occurs somewhere in the value as a string (the value itself, an
array element, or an object field value, recursively). -/
def strOccursIn (s : String) : JsVal → Bool
  | JsVal.str t => s = t
  | JsVal.arr xs => strOccursInArr s xs
  | JsVal.obj kvs => strOccursInObj s kvs
  | _ => false

/-- Occurrence of a string in an array's elements. -/
def strOccursInArr (s : String) : List JsVal → Bool
  | [] => false
  | v :: vs => strOccursIn s v || strOccursInArr s vs

/-- Occurrence of a string in an object's field values. -/
def strOccursInObj (s : String) : List (String × JsVal) → Bool
  | [] => false
  | (_, v) :: kvs => strOccursIn s v || strOccursInObj s kvs

end

/-- Results take the same branch and agree except in the diagnostic
payloads that echo the raw response: on success the values are equal, on
salvage exhaustion every field but the usage-metadata diagnostic is
equal, and on the no-candidate branch the echoed raw payload (which
contains the differing subtree itself) is not compared. -/
def sameUpToUsage : HandlerResult → HandlerResult → Prop
  | HandlerResult.ok v, HandlerResult.ok w => v = w
  | HandlerResult.noCandidate _, HandlerResult.noCandidate _ => True
  | HandlerResult.salvageExhausted m r p _ c,
    HandlerResult.salvageExhausted m2 r2 p2 _ c2 =>
    m = m2 ∧ r = r2 ∧ p = p2 ∧ c = c2
  | _, _ => False

/-- No brace character occurs in the text. -/
def noBraceChar (cs : List Char) : Bool :=
  cs.all (fun c => !(c = '{') && !(c = '}'))

/-- Characters that can continue or extend a number token; the parser's
lookahead past a parsed value can only depend on whether the next
character is one of these. -/
def numContChar (c : Char) : Bool :=
  c.isDigit || c = '-' || c = '+' || c = '.' || c = 'e' || c = 'E'

/-- Shape of the character span a successful value parse consumes. -/
def consumedOk : JsVal → List Char → Prop
  | JsVal.obj _, tok => tok.head? = some '{' ∧ tok.getLast? = some '}'
  | JsVal.arr _, tok => tok.head? = some '[' ∧ tok.getLast? = some ']'
  | JsVal.str _, tok => tok.head? = some '"' ∧ tok.getLast? = some '"'
  | JsVal.num _, tok => ∀ c ∈ tok, numContChar c = true
  | JsVal.bool true, tok => tok = ['t', 'r', 'u', 'e']
  | JsVal.bool false, tok => tok = ['f', 'a', 'l', 's', 'e']
  | JsVal.null, tok => tok = ['n', 'u', 'l', 'l']

/-- The head of the unconsumed rest cannot extend a number token. -/
def headSafe (r : List Char) : Prop :=
  ∀ c, r.head? = some c → numContChar c = false

/-- Two rests the parser cannot tell apart from the left: equal heads, or
both heads unable to extend a number token. -/
def boundaryOK (r r2 : List Char) : Prop :=
  r.head? = r2.head? ∨ (headSafe r ∧ headSafe r2)

/-- The schema-shaped candidate text of the direct-parse claim. -/
def c1SchemaText : String :=
  "\x7b\"statement_info\":\x7b\"bank_name\":\"X\"\x7d,\"account_summary\":\x7b\x7d,\"transactions\":[]\x7d"

/-- The value c1SchemaText denotes. -/
def c1SchemaVal : JsVal :=
  JsVal.obj [("statement_info", JsVal.obj [("bank_name", JsVal.str ("X"))]),
             ("account_summary", JsVal.obj []),
             ("transactions", JsVal.arr [])]

/-- An upstream response of the nominal shape
{"candidates":[{"content":{"parts":[{"text": <schema JSON>}]}}]}. -/
def c1Response : JsVal :=
  JsVal.obj [("candidates", JsVal.arr
    [JsVal.obj [("content", JsVal.obj
      [("parts", JsVal.arr
        [JsVal.obj [("text", JsVal.str c1SchemaText)]])])]])]

/-- Payload whose usage-metadata subtree hides a text fragment. -/
def c9PayloadA : JsVal :=
  JsVal.obj [("candidates", JsVal.arr [JsVal.str ("x")]),
             ("usageMetadata", JsVal.obj [("n", JsVal.str ("{}"))])]

/-- The same payload with a bare usage-metadata subtree. -/
def c9PayloadB : JsVal :=
  JsVal.obj [("candidates", JsVal.arr [JsVal.str ("x")]),
             ("usageMetadata", JsVal.null)]

mutual

/-- Accumulator-free form of the collector: the list of fragments the
collector appends for a value. -/
def collectS : JsVal → List String
  | JsVal.str s => if s = "" then [] else [s]
  | JsVal.arr xs => collectSArr xs
  | JsVal.obj kvs => collectSObj kvs
  | _ => []

/-- Accumulator-free collector over array elements. -/
def collectSArr : List JsVal → List String
  | [] => []
  | v :: vs => collectS v ++ collectSArr vs

/-- Accumulator-free collector over object entries. -/
def collectSObj : List (String × JsVal) → List String
  | [] => []
  | (k, v) :: kvs =>
    (match v with
      | JsVal.str s => if keyMatches k then [s] else []
      | _ => []) ++ collectS v ++ collectSObj kvs

end

/-- Discriminator: the value is a string. -/
def isStrVal : JsVal → Bool
  | JsVal.str _ => true
  | _ => false

/-- Discriminator: the value is an object. -/
def isObjVal : JsVal → Bool
  | JsVal.obj _ => true
  | _ => false

/-- C2 counterexample: on {"output": "hello", "nested": {"text": "world"}}
the collector does not return ["hello", "world"]; each matching key's
string is pushed twice (key match, then recursion into the string), so
the result is ["hello", "hello", "world", "world"]. -/
theorem collector_hello_world_duplicated_ce :
    (collectTextPieces (JsVal.obj [("output", JsVal.str ("hello")),
        ("nested", JsVal.obj [("text", JsVal.str ("world"))])]) [] ==
      [("hello" : String), "world"]) = false ∧
    (collectTextPieces (JsVal.obj [("output", JsVal.str ("hello")),
        ("nested", JsVal.obj [("text", JsVal.str ("world"))])]) []).length = 4 :=
  ⟨rfl, rfl⟩

/-- C2 amended: on {"output": "hello", "nested": {"text": "world"}} the
collector returns exactly ["hello", "hello", "world", "world"], the
top-level match and its recursive re-emission followed by the nested
match and its recursive re-emission, in that order. -/
theorem collector_hello_world_fragments :
    collectTextPieces (JsVal.obj [("output", JsVal.str ("hello")),
        ("nested", JsVal.obj [("text", JsVal.str ("world"))])]) []
      = ["hello", "hello", "world", "world"] := rfl

/-- C3 counterexample: the mapping {"foo": "bar"} has no key matching the
text heuristic, yet the collector emits "bar" (the unconditional
recursion into the value hits the bare-string branch). -/
theorem collector_nonmatching_key_emits_ce :
    collectTextPieces (JsVal.obj [("foo", JsVal.str ("bar"))]) [] = [("bar" : String)] ∧
    keyMatches ("foo") = false := ⟨rfl, rfl⟩

/-- C6 counterexample: the collector applied to the empty string emits no
fragment at all (the empty string is falsy, so `if (!obj) return out`
fires), not exactly one. -/
theorem collector_empty_string_ce :
    collectTextPieces (JsVal.str ("")) [] = ([] : List String) ∧
    (collectTextPieces (JsVal.str ("")) []).length = 0 := ⟨rfl, rfl⟩

/-- C6 amended: for every non-empty string input the collector emits that
value as exactly one fragment; the empty string yields none. -/
theorem collector_nonempty_string_single_fragment (s : String) (h : s ≠ "") :
    collectTextPieces (JsVal.str s) [] = [s] := by
  simp [collectTextPieces, h]

/-- Witness for the amended C6 theorem at the string "hi". -/
theorem collector_nonempty_string_single_fragment_witness :
    ("hi" : String) ≠ "" ∧ collectTextPieces (JsVal.str ("hi")) [] = [("hi" : String)] :=
  ⟨by decide, collector_nonempty_string_single_fragment ("hi") (by decide)⟩

/-- C8: a request without an uploaded document returns status 400 with
the error body immediately; the result does not depend on the configured
key or on any transport outcome, which in this pure rendering is the
statement that no upstream call or further processing happens. -/
theorem missing_file_short_circuits (k : Option String) (tr : TransportOutcome) :
    processPdf none k tr
      = { status := 400
          body := JsVal.obj [("error", JsVal.str ("No PDF file uploaded."))] } := rfl

/-- C4: the handler's inline salvage logic equals the strict-order
strategy chain — direct parse, then the guarded outer-brace slice, then
the guarded last-closing-brace prefix — stopping at the first success. -/
theorem salvage_eq_strategy_chain (t : List Char) :
    salvage t = firstSuccess [directStrategy, outerBraceStrategy, lastCloseStrategy] t := by
  show (match directStrategy t with
        | some v => some v
        | none =>
          match outerBraceStrategy t with
          | some v => some v
          | none => lastCloseStrategy t)
      = firstSuccess [directStrategy, outerBraceStrategy, lastCloseStrategy] t
  simp only [firstSuccess]
  cases directStrategy t with
  | some v => rfl
  | none =>
    cases outerBraceStrategy t with
    | some v => rfl
    | none => cases lastCloseStrategy t <;> rfl

set_option maxRecDepth 40000 in
/-- C1: on the nominal response {"candidates":[{"content":{"parts":
[{"text": J}]}}]} whose candidate text J is valid schema-shaped JSON,
the handler does not return the parsed J: the collector gathers J four
times (key match plus string recursion, over the candidate and again
over the whole payload), every salvage strategy fails on the joined
text, and the handler ends in the salvage-exhausted failure. -/
theorem valid_candidate_text_still_fails_pipeline :
    parseJson c1SchemaText = some c1SchemaVal ∧
    isSalvageExhausted (handleUpstream c1Response) = true ∧
    isOkResult (handleUpstream c1Response) = false := ⟨rfl, rfl, rfl⟩

set_option maxRecDepth 40000 in
/-- C9 counterexample: two payloads differing only in their usageMetadata
subtree take different branches — with {"n": "{}"} inside usageMetadata
the collected fragments make the brace slice parse and the handler
succeeds, with null there every strategy fails. -/
theorem usage_metadata_steers_control_flow_ce :
    isOkResult (handleUpstream c9PayloadA) = true ∧
    handleUpstream c9PayloadA = HandlerResult.ok (JsVal.obj []) ∧
    isSalvageExhausted (handleUpstream c9PayloadB) = true := ⟨rfl, rfl, rfl⟩

/-- C5 counterexample: with prefix "\"x", embedded object "{}" and suffix
"\"", none of which contain braces outside the embedded object, the full
text "\"x{}\"" is itself a valid JSON string literal, so the direct
parse succeeds first and salvage returns that string, not the embedded
object. -/
theorem salvage_direct_parse_preempts_ce :
    noBraceChar (("\"x").data) = true ∧ noBraceChar (("\"").data) = true ∧
    parseJson ("{}") = some (JsVal.obj []) ∧
    salvage ((("\"x").data) ++ (("{}").data) ++ (("\"").data))
      = some (JsVal.str ("x{}")) ∧
    isObjVal (JsVal.str ("x{}")) = false := ⟨rfl, rfl, rfl, rfl, rfl⟩

mutual

theorem collect_eq_specV (v : JsVal) (out : List String) :
    collectTextPieces v out = out ++ collectS v := by
  cases v with
  | null => simp [collectTextPieces, collectS]
  | bool b => simp [collectTextPieces, collectS]
  | num l => simp [collectTextPieces, collectS]
  | str s => by_cases h : s = "" <;> simp [collectTextPieces, collectS, h]
  | arr xs =>
    simp only [collectTextPieces, collectS]
    exact collect_eq_specA xs out
  | obj kvs =>
    simp only [collectTextPieces, collectS]
    exact collect_eq_specO kvs out

theorem collect_eq_specA (xs : List JsVal) (out : List String) :
    collectFromArr xs out = out ++ collectSArr xs := by
  cases xs with
  | nil => simp [collectFromArr, collectSArr]
  | cons v vs =>
    simp only [collectFromArr, collectSArr]
    rw [collect_eq_specA vs (collectTextPieces v out), collect_eq_specV v out]
    simp

theorem collect_eq_specO (kvs : List (String × JsVal)) (out : List String) :
    collectFromObj kvs out = out ++ collectSObj kvs := by
  cases kvs with
  | nil => simp [collectFromObj, collectSObj]
  | cons kv kvs2 =>
    obtain ⟨k, v⟩ := kv
    cases v with
    | str s =>
      by_cases h : keyMatches k <;>
        simp only [collectFromObj, collectSObj, h, if_true, if_false] <;>
        rw [collect_eq_specO kvs2 (collectTextPieces (JsVal.str s) _),
            collect_eq_specV (JsVal.str s)] <;>
        simp
    | null =>
      simp only [collectFromObj, collectSObj]
      rw [collect_eq_specO kvs2 (collectTextPieces JsVal.null out),
          collect_eq_specV JsVal.null out]
      simp
    | bool b =>
      simp only [collectFromObj, collectSObj]
      rw [collect_eq_specO kvs2 (collectTextPieces (JsVal.bool b) out),
          collect_eq_specV (JsVal.bool b) out]
      simp
    | num l =>
      simp only [collectFromObj, collectSObj]
      rw [collect_eq_specO kvs2 (collectTextPieces (JsVal.num l) out),
          collect_eq_specV (JsVal.num l) out]
      simp
    | arr xs =>
      simp only [collectFromObj, collectSObj]
      rw [collect_eq_specO kvs2 (collectTextPieces (JsVal.arr xs) out),
          collect_eq_specV (JsVal.arr xs) out]
      simp
    | obj kvs3 =>
      simp only [collectFromObj, collectSObj]
      rw [collect_eq_specO kvs2 (collectTextPieces (JsVal.obj kvs3) out),
          collect_eq_specV (JsVal.obj kvs3) out]
      simp

end

mutual

theorem mem_collectS_occurs (v : JsVal) (f : String) (h : f ∈ collectS v) :
    strOccursIn f v = true := by
  cases v with
  | null => simp [collectS] at h
  | bool b => simp [collectS] at h
  | num l => simp [collectS] at h
  | str s =>
    by_cases hs : s = "" <;> simp [collectS, hs] at h
    simp [strOccursIn, h]
  | arr xs =>
    simp only [collectS] at h
    simp only [strOccursIn]
    exact mem_collectSArr_occurs xs f h
  | obj kvs =>
    simp only [collectS] at h
    simp only [strOccursIn]
    exact mem_collectSObj_occurs kvs f h

theorem mem_collectSArr_occurs (xs : List JsVal) (f : String)
    (h : f ∈ collectSArr xs) : strOccursInArr f xs = true := by
  cases xs with
  | nil => simp [collectSArr] at h
  | cons v vs =>
    simp only [collectSArr, List.mem_append] at h
    simp only [strOccursInArr, Bool.or_eq_true]
    cases h with
    | inl h => exact Or.inl (mem_collectS_occurs v f h)
    | inr h => exact Or.inr (mem_collectSArr_occurs vs f h)

theorem mem_collectSObj_occurs (kvs : List (String × JsVal)) (f : String)
    (h : f ∈ collectSObj kvs) : strOccursInObj f kvs = true := by
  cases kvs with
  | nil => simp [collectSObj] at h
  | cons kv kvs2 =>
    obtain ⟨k, v⟩ := kv
    simp only [collectSObj, List.mem_append] at h
    simp only [strOccursInObj, Bool.or_eq_true]
    rcases h with (h | h) | h
    · cases v with
      | str s =>
        by_cases hk : keyMatches k <;> simp [hk] at h
        exact Or.inl (by simp [strOccursIn, h])
      | null => simp at h
      | bool b => simp at h
      | num l => simp at h
      | arr xs => simp at h
      | obj o => simp at h
    · exact Or.inl (mem_collectS_occurs v f h)
    · exact Or.inr (mem_collectSObj_occurs kvs2 f h)

end

/-- C3 amended: every fragment the collector emits from a value is a
string value occurring somewhere within it; the key heuristic governs
only the extra key-match emission, while the unconditional recursion
emits every non-empty string value regardless of its key (and matching
keys emit even empty strings). -/
theorem collector_fragments_occur (v : JsVal) (f : String)
    (h : f ∈ collectTextPieces v []) : strOccursIn f v = true := by
  rw [collect_eq_specV v []] at h
  simp only [List.nil_append] at h
  exact mem_collectS_occurs v f h

/-- Witness for the amended C3 theorem: the fragment "bar" collected
from {"foo": "bar"} occurs in that mapping. -/
theorem collector_fragments_occur_witness :
    ("bar" : String) ∈ collectTextPieces (JsVal.obj [("foo", JsVal.str ("bar"))]) [] ∧
    strOccursIn ("bar") (JsVal.obj [("foo", JsVal.str ("bar"))]) = true :=
  ⟨by decide, collector_fragments_occur _ _ (by decide)⟩

/-- The accumulator-free collector distributes over object entry
concatenation. -/
theorem collectSObj_append (a b : List (String × JsVal)) :
    collectSObj (a ++ b) = collectSObj a ++ collectSObj b := by
  induction a with
  | nil => simp [collectSObj]
  | cons kv a2 ih =>
    obtain ⟨k, v⟩ := kv
    simp [collectSObj, ih]

/-- Property lookup ignores an entry under a different key, whatever its
value. -/
theorem jget_entry_ne (pre post : List (String × JsVal)) (k0 k : String)
    (u1 u2 : JsVal) (hne : k0 ≠ k) :
    jget (JsVal.obj (pre ++ (k0, u1) :: post)) k
      = jget (JsVal.obj (pre ++ (k0, u2) :: post)) k := by
  simp only [jget, List.reverse_append, List.reverse_cons, List.append_assoc,
    List.find?_append]
  simp [List.find?_cons, hne]

/-- C9 amended: for two payloads that differ only in their usageMetadata
subtree, the handler takes the same branch and returns the same success
value, provided the two subtrees contribute no text fragments to the
collector; the subtree still reaches the joined text through the
whole-payload collection pass, so this proviso is what the
counterexample forces.  The failure bodies then agree in every field
except the usage-metadata diagnostic. -/
theorem usage_metadata_fragment_free_immaterial
    (pre post : List (String × JsVal)) (u1 u2 : JsVal)
    (h1 : collectTextPieces u1 [] = []) (h2 : collectTextPieces u2 [] = []) :
    sameUpToUsage
      (handleUpstream (JsVal.obj (pre ++ ("usageMetadata", u1) :: post)))
      (handleUpstream (JsVal.obj (pre ++ ("usageMetadata", u2) :: post))) := by
  have hs1 : collectS u1 = [] := by
    have hv := collect_eq_specV u1 []
    rw [List.nil_append] at hv
    rw [hv] at h1
    exact h1
  have hs2 : collectS u2 = [] := by
    have hv := collect_eq_specV u2 []
    rw [List.nil_append] at hv
    rw [hv] at h2
    exact h2
  have hget : getCandidate (JsVal.obj (pre ++ (("usageMetadata" : String), u1) :: post))
      = getCandidate (JsVal.obj (pre ++ (("usageMetadata" : String), u2) :: post)) := by
    simp only [getCandidate]
    rw [jget_entry_ne pre post ("usageMetadata") ("candidates") u1 u2 (by decide)]
  have hkm : keyMatches ("usageMetadata") = false := rfl
  have hcol : collectS (JsVal.obj (pre ++ (("usageMetadata" : String), u1) :: post))
      = collectS (JsVal.obj (pre ++ (("usageMetadata" : String), u2) :: post)) := by
    simp only [collectS, collectSObj_append, collectSObj]
    rw [hs1, hs2]
    cases u1 <;> cases u2 <;> simp [hkm]
  simp only [handleUpstream]
  rw [← hget]
  cases hc : getCandidate (JsVal.obj (pre ++ (("usageMetadata" : String), u1) :: post)) with
  | none => simp [sameUpToUsage]
  | some c =>
    by_cases ht : jsTruthy c
    · simp only [ht, Bool.not_true, if_neg (by simp : ¬((false : Bool) = true))]
      have hp : collectTextPieces (JsVal.obj (pre ++ (("usageMetadata" : String), u1) :: post)) (collectTextPieces c [])
          = collectTextPieces (JsVal.obj (pre ++ (("usageMetadata" : String), u2) :: post)) (collectTextPieces c []) := by
        rw [collect_eq_specV (JsVal.obj (pre ++ (("usageMetadata" : String), u1) :: post)) (collectTextPieces c []),
            collect_eq_specV (JsVal.obj (pre ++ (("usageMetadata" : String), u2) :: post)) (collectTextPieces c []),
            hcol]
      rw [hp]
      cases hs : salvage (jsTrim (joinPieces
          (collectTextPieces (JsVal.obj (pre ++ (("usageMetadata" : String), u2) :: post))
            (collectTextPieces c [])))) with
      | some v => simp [sameUpToUsage]
      | none => exact ⟨rfl, rfl, rfl, rfl⟩
    · simp only [Bool.not_eq_true] at ht
      simp [ht, sameUpToUsage]

set_option maxRecDepth 40000 in
/-- Witness for the amended C9 theorem at a concrete payload pair whose
usage-metadata subtrees ({} and null) collect to nothing. -/
theorem usage_metadata_fragment_free_immaterial_witness :
    collectTextPieces (JsVal.obj []) [] = [] ∧
    collectTextPieces JsVal.null [] = [] ∧
    sameUpToUsage
      (handleUpstream (JsVal.obj ([("candidates", JsVal.arr [JsVal.str ("x")])]
        ++ ("usageMetadata", JsVal.obj []) :: [])))
      (handleUpstream (JsVal.obj ([("candidates", JsVal.arr [JsVal.str ("x")])]
        ++ ("usageMetadata", JsVal.null) :: []))) :=
  ⟨rfl, rfl, usage_metadata_fragment_free_immaterial
    [("candidates", JsVal.arr [JsVal.str ("x")])] [] (JsVal.obj []) JsVal.null rfl rfl⟩

/-- C7: when the handler reaches a truthy candidate and every salvage
strategy fails on the joined text, the result is the salvage-exhausted
failure carrying the parse-error message of the first (direct) attempt
on the joined text, the raw preview of the joined text bounded by 32000
characters, a piecesCollected count equal to the length of the list of
fragments actually collected, the usage metadata when present (none
models the final null), and the serialized-candidate preview bounded by
32000 characters. -/
theorem salvage_exhausted_failure_fields (d c : JsVal)
    (hc : getCandidate d = some c) (ht : jsTruthy c = true)
    (hs : salvage (jsTrim (joinPieces (collectTextPieces d (collectTextPieces c [])))) = none) :
    handleUpstream d = HandlerResult.salvageExhausted
        (parseErrorMessage (jsTrim (joinPieces (collectTextPieces d (collectTextPieces c [])))))
        ((jsTrim (joinPieces (collectTextPieces d (collectTextPieces c [])))).take 32000)
        (collectTextPieces d (collectTextPieces c [])).length
        (usageOf d)
        ((stringify c).data.take 32000) ∧
    ((jsTrim (joinPieces (collectTextPieces d (collectTextPieces c [])))).take 32000).length ≤ 32000 ∧
    ((stringify c).data.take 32000).length ≤ 32000 := by
  refine ⟨?_, ?_, ?_⟩
  · simp only [handleUpstream, hc, ht, Bool.not_true, Bool.false_eq_true, if_false, hs]
  · rw [List.length_take]
    exact min_le_left _ _
  · rw [List.length_take]
    exact min_le_left _ _

/-- Witness for the C7 theorem at the response {"candidates":["x"]},
whose joined text "x\nx" defeats every strategy. -/
theorem salvage_exhausted_failure_fields_witness :
    getCandidate (JsVal.obj [("candidates", JsVal.arr [JsVal.str ("x")])])
      = some (JsVal.str ("x")) ∧
    jsTruthy (JsVal.str ("x")) = true ∧
    salvage (jsTrim (joinPieces (collectTextPieces
        (JsVal.obj [("candidates", JsVal.arr [JsVal.str ("x")])])
        (collectTextPieces (JsVal.str ("x")) [])))) = none ∧
    handleUpstream (JsVal.obj [("candidates", JsVal.arr [JsVal.str ("x")])])
      = HandlerResult.salvageExhausted
        (parseErrorMessage (jsTrim (joinPieces (collectTextPieces
          (JsVal.obj [("candidates", JsVal.arr [JsVal.str ("x")])])
          (collectTextPieces (JsVal.str ("x")) [])))))
        ((jsTrim (joinPieces (collectTextPieces
          (JsVal.obj [("candidates", JsVal.arr [JsVal.str ("x")])])
          (collectTextPieces (JsVal.str ("x")) [])))).take 32000)
        (collectTextPieces (JsVal.obj [("candidates", JsVal.arr [JsVal.str ("x")])])
          (collectTextPieces (JsVal.str ("x")) [])).length
        (usageOf (JsVal.obj [("candidates", JsVal.arr [JsVal.str ("x")])]))
        ((stringify (JsVal.str ("x"))).data.take 32000) :=
  ⟨rfl, rfl, rfl,
    (salvage_exhausted_failure_fields (JsVal.obj [("candidates", JsVal.arr [JsVal.str ("x")])])
      (JsVal.str ("x")) rfl rfl rfl).1⟩

theorem skipWs_decomp (cs : List Char) :
    ∃ w, cs = w ++ skipWs cs ∧ ∀ c ∈ w, wsChar c = true := by
  induction cs with
  | nil => exact ⟨[], rfl, by simp⟩
  | cons c cs ih =>
    by_cases h : wsChar c
    · obtain ⟨w, hw, hall⟩ := ih
      refine ⟨c :: w, ?_, ?_⟩
      · simp only [skipWs, h, if_true, List.cons_append]
        rw [← hw]
      · intro x hx
        rcases List.mem_cons.mp hx with hx | hx
        · exact hx ▸ h
        · exact hall x hx
    · refine ⟨[], ?_, by simp⟩
      simp [skipWs, h]

theorem skipWs_length_le (cs : List Char) : (skipWs cs).length ≤ cs.length := by
  obtain ⟨w, hw, _⟩ := skipWs_decomp cs
  conv_rhs => rw [hw]
  simp

theorem skipWs_cons_not_ws {c : Char} (cs : List Char) (h : wsChar c = false) :
    skipWs (c :: cs) = c :: cs := by
  simp [skipWs, h]

theorem skipWs_head_not_ws {cs r : List Char} {c : Char}
    (h : skipWs cs = c :: r) : wsChar c = false := by
  induction cs with
  | nil => simp [skipWs] at h
  | cons d ds ih =>
    by_cases hd : wsChar d
    · rw [skipWs, if_pos hd] at h
      exact ih h
    · rw [skipWs, if_neg hd] at h
      cases h
      simp only [Bool.not_eq_true] at hd
      exact hd

theorem skipWs_append_all {a : List Char} (b : List Char)
    (h : ∀ c ∈ a, wsChar c = true) : skipWs (a ++ b) = skipWs b := by
  induction a with
  | nil => rfl
  | cons c a2 ih =>
    have hc : wsChar c = true := h c (List.mem_cons_self c a2)
    simp only [List.cons_append, skipWs, hc, if_true]
    exact ih (fun x hx => h x (List.mem_cons_of_mem c hx))

theorem skipWs_eq_nil {cs : List Char} (h : skipWs cs = []) :
    ∀ c ∈ cs, wsChar c = true := by
  induction cs with
  | nil => simp
  | cons c cs2 ih =>
    by_cases hc : wsChar c
    · rw [skipWs, if_pos hc] at h
      intro x hx
      rcases List.mem_cons.mp hx with hx | hx
      · exact hx ▸ hc
      · exact ih h x hx
    · rw [skipWs, if_neg hc] at h
      cases h

theorem skipWs_append_head {a : List Char} (b : List Char) {d : Char} {ds : List Char}
    (h : skipWs a = d :: ds) : skipWs (a ++ b) = d :: (ds ++ b) := by
  induction a with
  | nil => simp [skipWs] at h
  | cons c a2 ih =>
    by_cases hc : wsChar c
    · rw [skipWs, if_pos hc] at h
      simp only [List.cons_append, skipWs, hc, if_true]
      exact ih h
    · rw [skipWs, if_neg hc] at h
      cases h
      simp only [List.cons_append, skipWs, hc, if_false]
      simp [hc]

/-- A successful string-body parse consumes a non-empty span ending at
the closing quote. -/
theorem parseStrBody_shape (cs : List Char) (acc : String) :
    ∀ s rest, parseStrBody cs acc = some (s, rest) →
      ∃ tok, tok ≠ [] ∧ cs = tok ++ rest ∧ tok.getLast? = some '"' := by
  induction cs, acc using parseStrBody.induct with
  | case1 x => intro s rest h; rw [parseStrBody.eq_def] at h; simp at h
  | case2 cs acc =>
    intro s rest h
    rw [parseStrBody.eq_def] at h; simp at h
    obtain ⟨hs, hr⟩ := h
    exact ⟨['"'], by simp, by simp [hr], rfl⟩
  | case3 acc hne => intro s rest h; rw [parseStrBody.eq_def] at h; simp at h
  | case4 acc h1 h2 h3 h4 cs3 hhex hne ih =>
    intro s rest h
    rw [parseStrBody.eq_def] at h; simp [hhex] at h
    obtain ⟨tok, hne2, hdec, hlast⟩ := ih s rest h
    refine ⟨'\\' :: 'u' :: h1 :: h2 :: h3 :: h4 :: tok, by simp, by simp [hdec], ?_⟩
    rw [show ('\\' :: 'u' :: h1 :: h2 :: h3 :: h4 :: tok)
        = ['\\', 'u', h1, h2, h3, h4] ++ tok by simp]
    rw [List.getLast?_append, hlast]
    rfl
  | case5 acc h1 h2 h3 h4 cs3 hhex hne =>
    intro s rest h
    rw [parseStrBody.eq_def] at h; simp [hhex] at h
  | case6 acc cs hshort hne =>
    intro s rest h
    rcases cs with _ | ⟨a, _ | ⟨b, _ | ⟨c, _ | ⟨d, e⟩⟩⟩⟩
    · rw [parseStrBody.eq_def] at h; simp at h
    · rw [parseStrBody.eq_def] at h; simp at h
    · rw [parseStrBody.eq_def] at h; simp at h
    · rw [parseStrBody.eq_def] at h; simp at h
    · exact absurd rfl (fun hh => hshort a b c d e hh)
  | case7 acc c cs hcu ec hec hne ih =>
    intro s rest h
    rw [parseStrBody.eq_def] at h; simp [hcu, hec] at h
    obtain ⟨tok, hne2, hdec, hlast⟩ := ih s rest h
    refine ⟨'\\' :: c :: tok, by simp, by simp [hdec], ?_⟩
    rw [show ('\\' :: c :: tok) = ['\\', c] ++ tok by simp]
    rw [List.getLast?_append, hlast]
    rfl
  | case8 acc c cs hcu hec hne =>
    intro s rest h
    rw [parseStrBody.eq_def] at h; simp [hcu, hec] at h
  | case9 c cs acc hq hb hctrl =>
    intro s rest h
    rw [parseStrBody.eq_def] at h; simp [hq, hb, hctrl] at h
  | case10 c cs acc hq hb hctrl ih =>
    intro s rest h
    rw [parseStrBody.eq_def] at h; simp [hq, hb, hctrl] at h
    obtain ⟨tok, hne2, hdec, hlast⟩ := ih s rest h
    refine ⟨c :: tok, by simp, by simp [hdec], ?_⟩
    rw [show (c :: tok) = [c] ++ tok by simp]
    rw [List.getLast?_append, hlast]
    rfl

theorem ws_not_numCont {c : Char} (h : wsChar c = true) : numContChar c = false := by
  simp only [wsChar, Bool.or_eq_true, decide_eq_true_eq] at h
  rcases h with ((h | h) | h) | h <;> subst h <;> decide

theorem ws_ne_open_brace {c : Char} (h : wsChar c = true) : (c = '{') = False := by
  simp only [wsChar, Bool.or_eq_true, decide_eq_true_eq] at h
  rcases h with ((h | h) | h) | h <;> subst h <;> simp

theorem ws_ne_close_brace {c : Char} (h : wsChar c = true) : (c = '}') = False := by
  simp only [wsChar, Bool.or_eq_true, decide_eq_true_eq] at h
  rcases h with ((h | h) | h) | h <;> subst h <;> simp

theorem splitDigits_spec (cs : List Char) :
    cs = (splitDigits cs).1 ++ (splitDigits cs).2 ∧
    (∀ c ∈ (splitDigits cs).1, c.isDigit = true) ∧
    (∀ c, ((splitDigits cs).2).head? = some c → c.isDigit = false) := by
  induction cs with
  | nil => simp [splitDigits]
  | cons c cs ih =>
    by_cases h : c.isDigit
    · obtain ⟨h1, h2, h3⟩ := ih
      simp only [splitDigits, h, if_true]
      refine ⟨?_, ?_, h3⟩
      · conv_lhs => rw [h1]
        rfl
      · intro x hx
        rcases List.mem_cons.mp hx with hx | hx
        · exact hx ▸ h
        · exact h2 x hx
    · simp only [Bool.not_eq_true] at h
      rw [splitDigits.eq_def]
      simp only [h, Bool.false_eq_true, if_false]
      refine ⟨by simp, by simp, ?_⟩
      intro x hx
      simp only [List.head?_cons, Option.some.injEq] at hx
      subst hx
      exact h

theorem splitDigits_rebuild (d r : List Char) (hd : ∀ c ∈ d, c.isDigit = true)
    (hr : ∀ c, r.head? = some c → c.isDigit = false) : splitDigits (d ++ r) = (d, r) := by
  induction d with
  | nil =>
    cases r with
    | nil => simp [splitDigits]
    | cons a b =>
      have ha := hr a rfl
      simp [splitDigits, ha]
  | cons c d2 ih =>
    have hc : c.isDigit = true := hd c (List.mem_cons_self c d2)
    have ih2 := ih (fun x hx => hd x (List.mem_cons_of_mem c hx))
    simp [splitDigits, hc, ih2]

theorem intPart_spec {cs ip r : List Char} (h : intPart cs = some (ip, r)) :
    cs = ip ++ r ∧ ip ≠ [] ∧ (∀ c ∈ ip, c.isDigit = true) := by
  cases cs with
  | nil => simp [intPart] at h
  | cons c cs0 =>
    rw [intPart.eq_def] at h
    by_cases h0 : c = '0'
    · simp only [h0, if_pos rfl] at h
      obtain ⟨hip, hr⟩ := Prod.mk.injEq .. ▸ Option.some.inj h
      subst hip hr
      exact ⟨by simp [h0], by simp, by simp [h0]⟩
    · simp only [if_neg h0] at h
      by_cases hd : c.isDigit
      · simp only [hd, if_pos rfl] at h
        obtain ⟨hip, hr⟩ := Prod.mk.injEq .. ▸ Option.some.inj h
        subst hip hr
        obtain ⟨h1, h2, h3⟩ := splitDigits_spec cs0
        refine ⟨by rw [List.cons_append, ← h1], by simp, ?_⟩
        intro x hx
        rcases List.mem_cons.mp hx with hx | hx
        · exact hx ▸ hd
        · exact h2 x hx
      · simp only [hd] at h
        simp at h

theorem intPart_frame {cs ip r : List Char} (h : intPart cs = some (ip, r))
    (Y : List Char)
    (hb : r.head? = Y.head? ∨ (∀ c, Y.head? = some c → numContChar c = false)) :
    intPart (ip ++ Y) = some (ip, Y) := by
  cases cs with
  | nil => simp [intPart] at h
  | cons c cs0 =>
    rw [intPart.eq_def] at h
    by_cases h0 : c = '0'
    · simp only [h0, if_pos rfl] at h
      obtain ⟨hip, hr⟩ := Prod.mk.injEq .. ▸ Option.some.inj h
      subst hip hr
      rw [intPart.eq_def]
      simp [h0]
    · simp only [if_neg h0] at h
      by_cases hd : c.isDigit
      · simp only [hd, if_pos rfl] at h
        obtain ⟨hip, hr⟩ := Prod.mk.injEq .. ▸ Option.some.inj h
        subst hip hr
        obtain ⟨h1, h2, h3⟩ := splitDigits_spec cs0
        have hY : ∀ x, Y.head? = some x → x.isDigit = false := by
          intro x hx
          rcases hb with hb | hb
          · exact h3 x (hb ▸ hx)
          · have hfalse := hb x hx
            cases hdx : x.isDigit
            · rfl
            · have htrue : numContChar x = true := by simp [numContChar, hdx]
              rw [hfalse] at htrue
              cases htrue
        have hre := splitDigits_rebuild (splitDigits cs0).1 Y h2 hY
        rw [List.cons_append, intPart.eq_def]
        simp only [if_neg h0, hd, if_pos rfl, hre]
        simp
      · simp only [hd] at h
        simp at h

theorem fracPart_spec {cs fp r : List Char} (h : fracPart cs = some (fp, r)) :
    cs = fp ++ r ∧ (∀ c ∈ fp, numContChar c = true) := by
  cases cs with
  | nil =>
    simp only [fracPart] at h
    obtain ⟨h1, h2⟩ := Prod.mk.injEq .. ▸ Option.some.inj h
    subst h1 h2
    simp
  | cons c cs0 =>
    rw [fracPart.eq_def] at h
    by_cases hdot : c = '.'
    · simp only [hdot, if_pos rfl] at h
      rcases hsd : splitDigits cs0 with ⟨ds, r2⟩
      rw [hsd] at h
      cases ds with
      | nil => simp at h
      | cons d ds0 =>
        simp only [] at h
        obtain ⟨h1, h2⟩ := Prod.mk.injEq .. ▸ Option.some.inj h
        subst h1 h2
        obtain ⟨hs1, hs2, hs3⟩ := splitDigits_spec cs0
        rw [hsd] at hs1 hs2
        refine ⟨by rw [hdot, List.cons_append, ← hs1], ?_⟩
        intro x hx
        rcases List.mem_cons.mp hx with hx | hx
        · subst hx
          decide
        · have := hs2 x hx
          simp [numContChar, this]
    · simp only [if_neg hdot] at h
      obtain ⟨h1, h2⟩ := Prod.mk.injEq .. ▸ Option.some.inj h
      subst h1 h2
      simp

theorem fracPart_frame {cs fp r : List Char} (h : fracPart cs = some (fp, r))
    (Y : List Char)
    (hb : r.head? = Y.head? ∨ (∀ c, Y.head? = some c → numContChar c = false)) :
    fracPart (fp ++ Y) = some (fp, Y) := by
  cases cs with
  | nil =>
    simp only [fracPart] at h
    obtain ⟨h1, h2⟩ := Prod.mk.injEq .. ▸ Option.some.inj h
    subst h1 h2
    cases Y with
    | nil => simp [fracPart]
    | cons y ys =>
      rcases hb with hb | hb
      · simp at hb
      · have hy := hb y rfl
        have hyne : (y = '.') = False := by
          by_cases hyd : y = '.'
          · exfalso
            have htrue : numContChar y = true := by simp [numContChar, hyd]
            rw [hy] at htrue
            cases htrue
          · simp [hyd]
        simp [fracPart, hyne]
  | cons c cs0 =>
    rw [fracPart.eq_def] at h
    by_cases hdot : c = '.'
    · simp only [hdot, if_pos rfl] at h
      rcases hsd : splitDigits cs0 with ⟨ds, r2⟩
      rw [hsd] at h
      cases ds with
      | nil => simp at h
      | cons d ds0 =>
        simp only [] at h
        obtain ⟨h1, h2⟩ := Prod.mk.injEq .. ▸ Option.some.inj h
        subst h1 h2
        obtain ⟨hs1, hs2, hs3⟩ := splitDigits_spec cs0
        rw [hsd] at hs1 hs2 hs3
        have hY : ∀ x, Y.head? = some x → x.isDigit = false := by
          intro x hx
          rcases hb with hb | hb
          · exact hs3 x (hb ▸ hx)
          · have hfalse := hb x hx
            cases hdx : x.isDigit
            · rfl
            · have htrue : numContChar x = true := by simp [numContChar, hdx]
              rw [hfalse] at htrue
              cases htrue
        have hre := splitDigits_rebuild (d :: ds0) Y hs2 hY
        rw [List.cons_append, fracPart.eq_def]
        simp only [List.cons_append] at hre
        simp [hre]
    · simp only [if_neg hdot] at h
      obtain ⟨h1, h2⟩ := Prod.mk.injEq .. ▸ Option.some.inj h
      subst h1 h2
      cases Y with
      | nil => simp [fracPart]
      | cons y ys =>
        have hyne : (y = '.') = False := by
          rcases hb with hb | hb
          · simp only [List.head?_cons, Option.some.injEq] at hb
            subst hb
            simp [hdot]
          · have hy := hb y rfl
            by_cases hyd : y = '.'
            · exfalso
              have htrue : numContChar y = true := by simp [numContChar, hyd]
              rw [hy] at htrue
              cases htrue
            · simp [hyd]
        simp [fracPart, hyne]

theorem numCont_false_elim {c : Char} (h : numContChar c = false) :
    c.isDigit = false ∧ (c = '-') = False ∧ (c = '+') = False ∧ (c = '.') = False ∧
      (c = 'e') = False ∧ (c = 'E') = False := by
  refine ⟨?_, ?_, ?_, ?_, ?_, ?_⟩
  · cases hx : c.isDigit
    · rfl
    · have : numContChar c = true := by simp [numContChar, hx]
      rw [h] at this; cases this
  · by_cases hx : c = '-'
    · have : numContChar c = true := by simp [numContChar, hx]
      rw [h] at this; cases this
    · simp [hx]
  · by_cases hx : c = '+'
    · have : numContChar c = true := by simp [numContChar, hx]
      rw [h] at this; cases this
    · simp [hx]
  · by_cases hx : c = '.'
    · have : numContChar c = true := by simp [numContChar, hx]
      rw [h] at this; cases this
    · simp [hx]
  · by_cases hx : c = 'e'
    · have : numContChar c = true := by simp [numContChar, hx]
      rw [h] at this; cases this
    · simp [hx]
  · by_cases hx : c = 'E'
    · have : numContChar c = true := by simp [numContChar, hx]
      rw [h] at this; cases this
    · simp [hx]

theorem digit_not_sign {c : Char} (h : c.isDigit = true) : (c = '+' || c = '-') = false := by
  by_cases h1 : c = '+'
  · subst h1; cases h
  · by_cases h2 : c = '-'
    · subst h2; cases h
    · simp [h1, h2]

theorem expPart_spec {cs ep r : List Char} (h : expPart cs = some (ep, r)) :
    cs = ep ++ r ∧ (∀ c ∈ ep, numContChar c = true) := by
  cases cs with
  | nil =>
    simp only [expPart] at h
    obtain ⟨h1, h2⟩ := Prod.mk.injEq .. ▸ Option.some.inj h
    subst h1 h2
    simp
  | cons c cs0 =>
    rw [expPart.eq_def] at h
    by_cases he : (c = 'e' || c = 'E') = true
    · simp only [he, if_pos rfl] at h
      cases cs0 with
      | nil => simp at h
      | cons s cs2 =>
        by_cases hs : (s = '+' || s = '-') = true
        · simp only [hs, if_pos rfl] at h
          rcases hsd : splitDigits cs2 with ⟨ds, r2⟩
          rw [hsd] at h
          cases ds with
          | nil => simp at h
          | cons d ds0 =>
            simp only [] at h
            obtain ⟨h1, h2⟩ := Prod.mk.injEq .. ▸ Option.some.inj h
            subst h1 h2
            obtain ⟨hs1, hs2, hs3⟩ := splitDigits_spec cs2
            rw [hsd] at hs1 hs2
            constructor
            · simp only [] at hs1
              simp [hs1]
            · intro x hx
              rcases List.mem_cons.mp hx with hx | hx
              · subst hx
                rcases Bool.or_eq_true .. |>.mp he with hx | hx <;>
                  simp only [decide_eq_true_eq] at hx <;> subst hx <;> decide
              · rcases List.mem_cons.mp hx with hx | hx
                · subst hx
                  rcases Bool.or_eq_true .. |>.mp hs with hx | hx <;>
                    simp only [decide_eq_true_eq] at hx <;> subst hx <;> decide
                · have := hs2 x hx
                  simp [numContChar, this]
        · simp only [hs] at h
          simp only [Bool.false_eq_true, if_false] at h
          rcases hsd : splitDigits (s :: cs2) with ⟨ds, r2⟩
          rw [hsd] at h
          cases ds with
          | nil => simp at h
          | cons d ds0 =>
            simp only [] at h
            obtain ⟨h1, h2⟩ := Prod.mk.injEq .. ▸ Option.some.inj h
            subst h1 h2
            obtain ⟨hs1, hs2, hs3⟩ := splitDigits_spec (s :: cs2)
            rw [hsd] at hs1 hs2
            constructor
            · simp only [] at hs1
              simp [hs1]
            · intro x hx
              rcases List.mem_cons.mp hx with hx | hx
              · subst hx
                rcases Bool.or_eq_true .. |>.mp he with hx | hx <;>
                  simp only [decide_eq_true_eq] at hx <;> subst hx <;> decide
              · have := hs2 x hx
                simp [numContChar, this]
    · simp only [he] at h
      simp only [Bool.false_eq_true, if_false] at h
      obtain ⟨h1, h2⟩ := Prod.mk.injEq .. ▸ Option.some.inj h
      subst h1 h2
      simp

theorem expPart_frame {cs ep r : List Char} (h : expPart cs = some (ep, r))
    (Y : List Char)
    (hb : r.head? = Y.head? ∨ (∀ c, Y.head? = some c → numContChar c = false)) :
    expPart (ep ++ Y) = some (ep, Y) := by
  have hYdig : (∀ c, r.head? = some c → c.isDigit = false) →
      ∀ x, Y.head? = some x → x.isDigit = false := by
    intro hr x hx
    rcases hb with hb2 | hb2
    · exact hr x (hb2 ▸ hx)
    · exact (numCont_false_elim (hb2 x hx)).1
  cases cs with
  | nil =>
    simp only [expPart] at h
    obtain ⟨h1, h2⟩ := Prod.mk.injEq .. ▸ Option.some.inj h
    subst h1 h2
    cases Y with
    | nil => simp [expPart]
    | cons y ys =>
      rcases hb with hb | hb
      · simp at hb
      · obtain ⟨_, _, _, _, he1, he2⟩ := numCont_false_elim (hb y rfl)
        simp [expPart, he1, he2]
  | cons c cs0 =>
    rw [expPart.eq_def] at h
    by_cases he : (c = 'e' || c = 'E') = true
    · simp only [he, if_pos rfl] at h
      cases cs0 with
      | nil => simp at h
      | cons s cs2 =>
        by_cases hs : (s = '+' || s = '-') = true
        · simp only [hs, if_pos rfl] at h
          rcases hsd : splitDigits cs2 with ⟨ds, r2⟩
          rw [hsd] at h
          cases ds with
          | nil => simp at h
          | cons d ds0 =>
            simp only [] at h
            obtain ⟨h1, h2⟩ := Prod.mk.injEq .. ▸ Option.some.inj h
            subst h1 h2
            obtain ⟨hs1, hs2, hs3⟩ := splitDigits_spec cs2
            rw [hsd] at hs1 hs2 hs3
            simp only [] at hs1 hs2
            have hre := splitDigits_rebuild (d :: ds0) Y hs2 (hYdig hs3)
            rw [expPart.eq_def]
            simp only [List.cons_append, he, if_pos rfl, hs]
            simp only [List.cons_append] at hre
            simp [hre]
        · simp only [hs] at h
          simp only [Bool.false_eq_true, if_false] at h
          rcases hsd : splitDigits (s :: cs2) with ⟨ds, r2⟩
          rw [hsd] at h
          cases ds with
          | nil => simp at h
          | cons d ds0 =>
            simp only [] at h
            obtain ⟨h1, h2⟩ := Prod.mk.injEq .. ▸ Option.some.inj h
            subst h1 h2
            obtain ⟨hs1, hs2, hs3⟩ := splitDigits_spec (s :: cs2)
            rw [hsd] at hs1 hs2 hs3
            simp only [] at hs1 hs2
            have hdd : d.isDigit = true := hs2 d (List.mem_cons_self d ds0)
            have hdsign := digit_not_sign hdd
            have hre := splitDigits_rebuild (d :: ds0) Y hs2 (hYdig hs3)
            rw [expPart.eq_def]
            simp only [List.cons_append, he, if_pos rfl, hdsign]
            simp only [List.cons_append] at hre
            simp [hre]
    · simp only [he] at h
      simp only [Bool.false_eq_true, if_false] at h
      obtain ⟨h1, h2⟩ := Prod.mk.injEq .. ▸ Option.some.inj h
      subst h1 h2
      cases Y with
      | nil => simp [expPart]
      | cons y ys =>
        have hyne : (y = 'e' || y = 'E') = false := by
          rcases hb with hb | hb
          · simp only [List.head?_cons, Option.some.injEq] at hb
            subst hb
            simpa using he
          · obtain ⟨_, _, _, _, he1, he2⟩ := numCont_false_elim (hb y rfl)
            simp [he1, he2]
        simp [expPart, hyne]

theorem digit_ne_minus {c : Char} (h : c.isDigit = true) : (c = '-') = False := by
  by_cases h1 : c = '-'
  · subst h1; cases h
  · simp [h1]

theorem heads_eq_of_append (a x y : List Char) (h : a ≠ []) :
    (a ++ x).head? = (a ++ y).head? := by
  cases a with
  | nil => exact absurd rfl h
  | cons c a2 => simp

theorem parseNum_main {cs : List Char} {v : JsVal} {rest : List Char}
    (h : parseNum cs = some (v, rest)) :
    ∃ tok, tok ≠ [] ∧ cs = tok ++ rest ∧ (∀ c ∈ tok, numContChar c = true) ∧
      v = JsVal.num (String.mk tok) ∧
      (∀ Y, boundaryOK rest Y → parseNum (tok ++ Y) = some (v, Y)) := by
  cases cs with
  | nil => simp [parseNum] at h
  | cons c cs0 =>
    rw [parseNum.eq_def] at h
    simp only [] at h
    by_cases hm : c = '-'
    · simp only [hm, reduceIte] at h
      rcases hip : intPart cs0 with _ | ⟨ip, cs2⟩
      · rw [hip] at h; simp at h
      · rw [hip] at h
        simp only [] at h
        rcases hfp : fracPart cs2 with _ | ⟨fp, cs3⟩
        · rw [hfp] at h; simp at h
        · rw [hfp] at h
          simp only [] at h
          rcases hep : expPart cs3 with _ | ⟨ep, cs4⟩
          · rw [hep] at h; simp at h
          · rw [hep] at h
            simp only [] at h
            obtain ⟨h1, h2⟩ := Prod.mk.injEq .. ▸ Option.some.inj h
            subst h2
            obtain ⟨hi1, hi2, hi3⟩ := intPart_spec hip
            obtain ⟨hf1, hf2⟩ := fracPart_spec hfp
            obtain ⟨he1, he2⟩ := expPart_spec hep
            refine ⟨'-' :: (ip ++ fp ++ ep), by simp, ?_, ?_, ?_, ?_⟩
            · rw [hm]
              simp only [List.cons_append, List.append_assoc]
              rw [hi1, hf1, he1]
            · intro x hx
              rcases List.mem_cons.mp hx with hx | hx
              · subst hx; decide
              · rcases (by simpa using hx : x ∈ ip ∨ x ∈ fp ∨ x ∈ ep) with hx | hx | hx
                · have := hi3 x hx
                  simp [numContChar, this]
                · exact hf2 x hx
                · exact he2 x hx
            · rw [← h1]
              simp
            · intro Y hY
              have hepf := expPart_frame hep Y (by
                rcases hY with hY | hY
                · exact Or.inl hY
                · exact Or.inr (fun c2 hc2 => hY.2 c2 hc2))
              have hfpf : fracPart (fp ++ (ep ++ Y)) = some (fp, ep ++ Y) := by
                refine fracPart_frame hfp (ep ++ Y) ?_
                cases ep with
                | nil =>
                  rcases hY with hY | hY
                  · exact Or.inl (by rw [he1]; simpa using hY)
                  · exact Or.inr (fun c2 hc2 => hY.2 c2 (by simpa using hc2))
                | cons e1 e2 => exact Or.inl (by rw [he1]; simp)
              have hipf : intPart (ip ++ (fp ++ (ep ++ Y))) = some (ip, fp ++ (ep ++ Y)) := by
                refine intPart_frame hip (fp ++ (ep ++ Y)) ?_
                cases fp with
                | nil =>
                  cases ep with
                  | nil =>
                    rcases hY with hY | hY
                    · exact Or.inl (by rw [hf1, he1]; simpa using hY)
                    · exact Or.inr (fun c2 hc2 => hY.2 c2 (by simpa using hc2))
                  | cons e1 e2 => exact Or.inl (by rw [hf1, he1]; simp)
                | cons f1 f2 => exact Or.inl (by rw [hf1]; simp)
              rw [List.cons_append, parseNum.eq_def]
              simp only [hm, reduceIte]
              simp only [List.append_assoc]
              rw [hipf]
              simp only []
              rw [hfpf]
              simp only []
              rw [hepf]
              simp [← h1]
    · simp only [hm, reduceIte] at h
      rcases hip : intPart (c :: cs0) with _ | ⟨ip, cs2⟩
      · rw [hip] at h; simp at h
      · rw [hip] at h
        simp only [] at h
        rcases hfp : fracPart cs2 with _ | ⟨fp, cs3⟩
        · rw [hfp] at h; simp at h
        · rw [hfp] at h
          simp only [] at h
          rcases hep : expPart cs3 with _ | ⟨ep, cs4⟩
          · rw [hep] at h; simp at h
          · rw [hep] at h
            simp only [] at h
            obtain ⟨h1, h2⟩ := Prod.mk.injEq .. ▸ Option.some.inj h
            subst h2
            obtain ⟨hi1, hi2, hi3⟩ := intPart_spec hip
            obtain ⟨hf1, hf2⟩ := fracPart_spec hfp
            obtain ⟨he1, he2⟩ := expPart_spec hep
            refine ⟨ip ++ fp ++ ep, by simp [hi2], ?_, ?_, ?_, ?_⟩
            · rw [hi1, hf1, he1]
              simp [List.append_assoc]
            · intro x hx
              rcases (by simpa using hx : x ∈ ip ∨ x ∈ fp ∨ x ∈ ep) with hx | hx | hx
              · have := hi3 x hx
                simp [numContChar, this]
              · exact hf2 x hx
              · exact he2 x hx
            · rw [← h1]
              simp
            · intro Y hY
              have hepf := expPart_frame hep Y (by
                rcases hY with hY | hY
                · exact Or.inl hY
                · exact Or.inr (fun c2 hc2 => hY.2 c2 hc2))
              have hfpf : fracPart (fp ++ (ep ++ Y)) = some (fp, ep ++ Y) := by
                refine fracPart_frame hfp (ep ++ Y) ?_
                cases ep with
                | nil =>
                  rcases hY with hY | hY
                  · exact Or.inl (by rw [he1]; simpa using hY)
                  · exact Or.inr (fun c2 hc2 => hY.2 c2 (by simpa using hc2))
                | cons e1 e2 => exact Or.inl (by rw [he1]; simp)
              have hipf : intPart (ip ++ (fp ++ (ep ++ Y))) = some (ip, fp ++ (ep ++ Y)) := by
                refine intPart_frame hip (fp ++ (ep ++ Y)) ?_
                cases fp with
                | nil =>
                  cases ep with
                  | nil =>
                    rcases hY with hY | hY
                    · exact Or.inl (by rw [hf1, he1]; simpa using hY)
                    · exact Or.inr (fun c2 hc2 => hY.2 c2 (by simpa using hc2))
                  | cons e1 e2 => exact Or.inl (by rw [hf1, he1]; simp)
                | cons f1 f2 => exact Or.inl (by rw [hf1]; simp)
              cases ip with
              | nil => exact absurd rfl hi2
              | cons i1 i2 =>
                have hd1 : i1.isDigit = true := hi3 i1 (List.mem_cons_self i1 i2)
                have hne : (i1 = '-') = False := digit_ne_minus hd1
                simp only [List.cons_append, List.append_assoc]
                rw [parseNum.eq_def]
                simp only [hne, reduceIte]
                simp only [List.append_assoc] at hipf
                simp only [List.cons_append] at hipf
                rw [hipf]
                simp only []
                rw [hfpf]
                simp only []
                rw [hepf]
                simp [← h1]

theorem parseStrBody_frame (cs : List Char) (acc : String) :
    ∀ s rest tok Y, parseStrBody cs acc = some (s, rest) → cs = tok ++ rest →
      parseStrBody (tok ++ Y) acc = some (s, Y) := by
  induction cs, acc using parseStrBody.induct with
  | case1 x => intro s rest tok Y h hd; simp [parseStrBody] at h
  | case2 cs acc =>
    intro s rest tok Y h hd
    rw [parseStrBody.eq_def] at h; simp at h
    obtain ⟨hs, hr⟩ := h
    subst hs
    subst hr
    have htok : tok = ['"'] := by
      have h2 : ['"'] ++ cs = tok ++ cs := by simpa using hd
      exact (List.append_cancel_right h2).symm
    subst htok
    rw [parseStrBody.eq_def]
    simp
  | case3 acc hne => intro s rest tok Y h hd; rw [parseStrBody.eq_def] at h; simp at h
  | case4 acc h1 h2 h3 h4 cs3 hhex hne ih =>
    intro s rest tok Y h hd
    rw [parseStrBody.eq_def] at h; simp [hhex] at h
    obtain ⟨tok3, hne3, hdec3, hlast3⟩ := parseStrBody_shape cs3 _ s rest h
    have htok : tok = '\\' :: 'u' :: h1 :: h2 :: h3 :: h4 :: tok3 := by
      rw [hdec3] at hd
      rw [show ('\\' :: 'u' :: h1 :: h2 :: h3 :: h4 :: (tok3 ++ rest))
          = ('\\' :: 'u' :: h1 :: h2 :: h3 :: h4 :: tok3) ++ rest by simp] at hd
      exact List.append_cancel_right hd.symm
    subst htok
    have hrec := ih s rest tok3 Y h hdec3
    rw [show (('\\' :: 'u' :: h1 :: h2 :: h3 :: h4 :: tok3) ++ Y)
        = '\\' :: 'u' :: h1 :: h2 :: h3 :: h4 :: (tok3 ++ Y) by simp]
    rw [parseStrBody.eq_def]
    simp [hhex]
    exact hrec
  | case5 acc h1 h2 h3 h4 cs3 hhex hne =>
    intro s rest tok Y h hd
    rw [parseStrBody.eq_def] at h; simp [hhex] at h
  | case6 acc cs hshort hne =>
    intro s rest tok Y h hd
    rcases cs with _ | ⟨a, _ | ⟨b, _ | ⟨c2, _ | ⟨d, e⟩⟩⟩⟩
    · rw [parseStrBody.eq_def] at h; simp at h
    · rw [parseStrBody.eq_def] at h; simp at h
    · rw [parseStrBody.eq_def] at h; simp at h
    · rw [parseStrBody.eq_def] at h; simp at h
    · exact absurd rfl (fun hh => hshort a b c2 d e hh)
  | case7 acc c cs hcu ec hec hne ih =>
    intro s rest tok Y h hd
    rw [parseStrBody.eq_def] at h; simp [hcu, hec] at h
    obtain ⟨tok3, hne3, hdec3, hlast3⟩ := parseStrBody_shape cs _ s rest h
    have htok : tok = '\\' :: c :: tok3 := by
      rw [hdec3] at hd
      rw [show ('\\' :: c :: (tok3 ++ rest)) = ('\\' :: c :: tok3) ++ rest by simp] at hd
      exact List.append_cancel_right hd.symm
    subst htok
    have hrec := ih s rest tok3 Y h hdec3
    rw [show (('\\' :: c :: tok3) ++ Y) = '\\' :: c :: (tok3 ++ Y) by simp]
    rw [parseStrBody.eq_def]
    simp [hcu, hec]
    exact hrec
  | case8 acc c cs hcu hec hne =>
    intro s rest tok Y h hd
    rw [parseStrBody.eq_def] at h; simp [hcu, hec] at h
  | case9 c cs acc hq hb hctrl =>
    intro s rest tok Y h hd
    rw [parseStrBody.eq_def] at h; simp [hq, hb, hctrl] at h
  | case10 c cs acc hq hb hctrl ih =>
    intro s rest tok Y h hd
    rw [parseStrBody.eq_def] at h; simp [hq, hb, hctrl] at h
    obtain ⟨tok3, hne3, hdec3, hlast3⟩ := parseStrBody_shape cs _ s rest h
    have htok : tok = c :: tok3 := by
      rw [hdec3] at hd
      rw [show (c :: (tok3 ++ rest)) = (c :: tok3) ++ rest by simp] at hd
      exact List.append_cancel_right hd.symm
    subst htok
    have hrec := ih s rest tok3 Y h hdec3
    rw [show ((c :: tok3) ++ Y) = c :: (tok3 ++ Y) by simp]
    rw [parseStrBody.eq_def]
    simp [hq, hb, hctrl]
    exact hrec

mutual

theorem shape_value : ∀ (n : Nat) (cs : List Char) (v : JsVal) (rest : List Char),
    parseValue n cs = some (v, rest) →
    ∃ tok, tok ≠ [] ∧ cs = tok ++ rest ∧ consumedOk v tok
  | 0, cs, v, rest => by
    intro h
    simp [parseValue] at h
  | n + 1, cs, v, rest => by
    intro h
    cases cs with
    | nil => rw [parseValue.eq_def] at h; simp at h
    | cons c rest0 =>
      rw [parseValue.eq_def] at h
      simp only [] at h
      obtain ⟨w, hw, hwall⟩ := skipWs_decomp rest0
      by_cases h1 : c = '{'
      · rw [if_pos h1] at h
        cases hsw : skipWs rest0 with
        | nil => rw [hsw] at h; simp at h
        | cons c2 r2 =>
          rw [hsw] at h
          simp only [] at h
          by_cases h2 : c2 = '}'
          · rw [if_pos h2] at h
            obtain ⟨hv, hr⟩ := Prod.mk.injEq .. ▸ Option.some.inj h
            subst hr
            refine ⟨'{' :: (w ++ ['}']), by simp, ?_, ?_⟩
            · rw [h1, hw, hsw, h2]
              simp
            · rw [← hv]
              refine ⟨by simp, ?_⟩
              rw [show ('{' :: (w ++ ['}'])) = ('{' :: w) ++ ['}'] by simp]
              exact List.getLast?_concat _
          · rw [if_neg h2] at h
            by_cases h3 : c2 = '"'
            · rw [if_pos h3] at h
              rcases hm : parseMember n r2 with _ | ⟨kv, r3⟩
              · rw [hm] at h; simp at h
              · rw [hm] at h
                simp only [] at h
                rcases ht : parseObjTail n r3 with _ | ⟨ms, r4⟩
                · rw [ht] at h; simp at h
                · rw [ht] at h
                  simp only [] at h
                  obtain ⟨hv, hr⟩ := Prod.mk.injEq .. ▸ Option.some.inj h
                  subst hr
                  obtain ⟨tokM, hMne, hMdec⟩ := shape_member n r2 kv r3 hm
                  obtain ⟨tokT, hTne, hTdec, hTlast⟩ := shape_objTail n r3 ms r4 ht
                  refine ⟨'{' :: (w ++ '"' :: (tokM ++ tokT)), by simp, ?_, ?_⟩
                  · rw [h1, hw, hsw, h3, hMdec, hTdec]
                    simp
                  · rw [← hv]
                    refine ⟨by simp, ?_⟩
                    rw [show ('{' :: (w ++ '"' :: (tokM ++ tokT)))
                        = ('{' :: (w ++ '"' :: tokM)) ++ tokT by simp]
                    rw [List.getLast?_append, hTlast]
                    rfl
            · rw [if_neg h3] at h
              exact Option.noConfusion h
      · by_cases h4 : c = '['
        · rw [if_neg h1, if_pos h4] at h
          cases hsw : skipWs rest0 with
          | nil => rw [hsw] at h; simp at h
          | cons c2 r2 =>
            rw [hsw] at h
            simp only [] at h
            by_cases h2 : c2 = ']'
            · rw [if_pos h2] at h
              obtain ⟨hv, hr⟩ := Prod.mk.injEq .. ▸ Option.some.inj h
              subst hr
              refine ⟨'[' :: (w ++ [']']), by simp, ?_, ?_⟩
              · rw [h4, hw, hsw, h2]
                simp
              · rw [← hv]
                refine ⟨by simp, ?_⟩
                rw [show ('[' :: (w ++ [']'])) = ('[' :: w) ++ [']'] by simp]
                exact List.getLast?_concat _
            · rw [if_neg h2] at h
              rcases hm : parseValue n (c2 :: r2) with _ | ⟨v1, r3⟩
              · rw [hm] at h; simp at h
              · rw [hm] at h
                simp only [] at h
                rcases ht : parseArrTail n r3 with _ | ⟨vs, r4⟩
                · rw [ht] at h; simp at h
                · rw [ht] at h
                  simp only [] at h
                  obtain ⟨hv, hr⟩ := Prod.mk.injEq .. ▸ Option.some.inj h
                  subst hr
                  obtain ⟨tokV, hVne, hVdec, _⟩ := shape_value n (c2 :: r2) v1 r3 hm
                  obtain ⟨tokT, hTne, hTdec, hTlast⟩ := shape_arrTail n r3 vs r4 ht
                  refine ⟨'[' :: (w ++ (tokV ++ tokT)), by simp, ?_, ?_⟩
                  · rw [h4, hw, hsw]
                    rw [show (c2 :: r2) = tokV ++ r3 from hVdec, hTdec]
                    simp
                  · rw [← hv]
                    refine ⟨by simp, ?_⟩
                    rw [show ('[' :: (w ++ (tokV ++ tokT)))
                        = ('[' :: (w ++ tokV)) ++ tokT by simp]
                    rw [List.getLast?_append, hTlast]
                    rfl
        · by_cases h5 : c = '"'
          · rw [if_neg h1, if_neg h4, if_pos h5] at h
            rcases hs : parseStrBody rest0 (String.mk []) with _ | ⟨s, r2⟩
            · rw [hs] at h; simp at h
            · rw [hs] at h
              simp only [] at h
              obtain ⟨hv, hr⟩ := Prod.mk.injEq .. ▸ Option.some.inj h
              subst hr
              obtain ⟨tokS, hSne, hSdec, hSlast⟩ := parseStrBody_shape rest0 _ s r2 hs
              refine ⟨'"' :: tokS, by simp, ?_, ?_⟩
              · rw [h5, hSdec]
                simp
              · rw [← hv]
                refine ⟨by simp, ?_⟩
                rw [show ('"' :: tokS) = ['"'] ++ tokS by simp]
                rw [List.getLast?_append, hSlast]
                rfl
          · by_cases h6 : c = 't'
            · rw [if_neg h1, if_neg h4, if_neg h5, if_pos h6] at h
              by_cases h7 : rest0.take 3 = ['r', 'u', 'e']
              · rw [if_pos h7] at h
                obtain ⟨hv, hr⟩ := Prod.mk.injEq .. ▸ Option.some.inj h
                subst hr
                refine ⟨['t', 'r', 'u', 'e'], by simp, ?_, ?_⟩
                · rw [h6]
                  rw [show (['t', 'r', 'u', 'e'] : List Char) ++ rest0.drop 3
                      = 't' :: (['r', 'u', 'e'] ++ rest0.drop 3) by simp]
                  rw [← h7, List.take_append_drop]
                · rw [← hv]
                  rfl
              · rw [if_neg h7] at h
                exact Option.noConfusion h
            · by_cases h8 : c = 'f'
              · rw [if_neg h1, if_neg h4, if_neg h5, if_neg h6, if_pos h8] at h
                by_cases h7 : rest0.take 4 = ['a', 'l', 's', 'e']
                · rw [if_pos h7] at h
                  obtain ⟨hv, hr⟩ := Prod.mk.injEq .. ▸ Option.some.inj h
                  subst hr
                  refine ⟨['f', 'a', 'l', 's', 'e'], by simp, ?_, ?_⟩
                  · rw [h8]
                    rw [show (['f', 'a', 'l', 's', 'e'] : List Char) ++ rest0.drop 4
                        = 'f' :: (['a', 'l', 's', 'e'] ++ rest0.drop 4) by simp]
                    rw [← h7, List.take_append_drop]
                  · rw [← hv]
                    rfl
                · rw [if_neg h7] at h
                  exact Option.noConfusion h
              · by_cases h9 : c = 'n'
                · rw [if_neg h1, if_neg h4, if_neg h5, if_neg h6, if_neg h8, if_pos h9] at h
                  by_cases h7 : rest0.take 3 = ['u', 'l', 'l']
                  · rw [if_pos h7] at h
                    obtain ⟨hv, hr⟩ := Prod.mk.injEq .. ▸ Option.some.inj h
                    subst hr
                    refine ⟨['n', 'u', 'l', 'l'], by simp, ?_, ?_⟩
                    · rw [h9]
                      rw [show (['n', 'u', 'l', 'l'] : List Char) ++ rest0.drop 3
                          = 'n' :: (['u', 'l', 'l'] ++ rest0.drop 3) by simp]
                      rw [← h7, List.take_append_drop]
                    · rw [← hv]
                      rfl
                  · rw [if_neg h7] at h
                    exact Option.noConfusion h
                · rw [if_neg h1, if_neg h4, if_neg h5, if_neg h6, if_neg h8, if_neg h9] at h
                  obtain ⟨tok, hne, hdec, hchars, hvnum, _⟩ := parseNum_main h
                  refine ⟨tok, hne, hdec, ?_⟩
                  rw [hvnum]
                  exact hchars

theorem shape_member : ∀ (n : Nat) (cs : List Char) (kv : String × JsVal) (rest : List Char),
    parseMember n cs = some (kv, rest) →
    ∃ tok, tok ≠ [] ∧ cs = tok ++ rest
  | 0, cs, kv, rest => by
    intro h
    simp [parseMember] at h
  | n + 1, cs, kv, rest => by
    intro h
    rw [parseMember.eq_def] at h
    simp only [] at h
    rcases hs : parseStrBody cs (String.mk []) with _ | ⟨k, r1⟩
    · rw [hs] at h; simp at h
    · rw [hs] at h
      simp only [] at h
      obtain ⟨w1, hw1, hw1all⟩ := skipWs_decomp r1
      cases hsw : skipWs r1 with
      | nil => rw [hsw] at h; simp at h
      | cons c2 r2 =>
        rw [hsw] at h
        simp only [] at h
        by_cases h2 : c2 = ':'
        · rw [if_pos h2] at h
          rcases hv : parseValue n (skipWs r2) with _ | ⟨v1, r3⟩
          · rw [hv] at h; simp at h
          · rw [hv] at h
            simp only [] at h
            obtain ⟨hkv, hr⟩ := Prod.mk.injEq .. ▸ Option.some.inj h
            subst hr
            obtain ⟨tokS, hSne, hSdec, _⟩ := parseStrBody_shape cs _ k r1 hs
            obtain ⟨w2, hw2, hw2all⟩ := skipWs_decomp r2
            obtain ⟨tokV, hVne, hVdec, _⟩ := shape_value n (skipWs r2) v1 r3 hv
            refine ⟨tokS ++ (w1 ++ ':' :: (w2 ++ tokV)), by simp [hSne], ?_⟩
            rw [hSdec, hw1, hsw, h2, hw2, hVdec]
            simp
        · rw [if_neg h2] at h
          exact Option.noConfusion h

theorem shape_objTail : ∀ (n : Nat) (cs : List Char) (ms : List (String × JsVal)) (rest : List Char),
    parseObjTail n cs = some (ms, rest) →
    ∃ tok, tok ≠ [] ∧ cs = tok ++ rest ∧ tok.getLast? = some '}'
  | 0, cs, ms, rest => by
    intro h
    simp [parseObjTail] at h
  | n + 1, cs, ms, rest => by
    intro h
    rw [parseObjTail.eq_def] at h
    simp only [] at h
    obtain ⟨w, hw, hwall⟩ := skipWs_decomp cs
    cases hsw : skipWs cs with
    | nil => rw [hsw] at h; simp at h
    | cons c2 r2 =>
      rw [hsw] at h
      simp only [] at h
      by_cases h2 : c2 = '}'
      · rw [if_pos h2] at h
        obtain ⟨hv, hr⟩ := Prod.mk.injEq .. ▸ Option.some.inj h
        subst hr
        refine ⟨w ++ ['}'], by simp, ?_, List.getLast?_concat _⟩
        rw [hw, hsw, h2]
        simp
      · rw [if_neg h2] at h
        by_cases h3 : c2 = ','
        · rw [if_pos h3] at h
          obtain ⟨w2, hw2, hw2all⟩ := skipWs_decomp r2
          cases hsw2 : skipWs r2 with
          | nil => rw [hsw2] at h; simp at h
          | cons c3 r3 =>
            rw [hsw2] at h
            simp only [] at h
            by_cases h4 : c3 = '"'
            · rw [if_pos h4] at h
              rcases hm : parseMember n r3 with _ | ⟨kv, r4⟩
              · rw [hm] at h; simp at h
              · rw [hm] at h
                simp only [] at h
                rcases ht : parseObjTail n r4 with _ | ⟨ms2, r5⟩
                · rw [ht] at h; simp at h
                · rw [ht] at h
                  simp only [] at h
                  obtain ⟨hv, hr⟩ := Prod.mk.injEq .. ▸ Option.some.inj h
                  subst hr
                  obtain ⟨tokM, hMne, hMdec⟩ := shape_member n r3 kv r4 hm
                  obtain ⟨tokT, hTne, hTdec, hTlast⟩ := shape_objTail n r4 ms2 r5 ht
                  refine ⟨w ++ ',' :: (w2 ++ '"' :: (tokM ++ tokT)), by simp, ?_, ?_⟩
                  · rw [hw, hsw, h3, hw2, hsw2, h4, hMdec, hTdec]
                    simp
                  · rw [show (w ++ ',' :: (w2 ++ '"' :: (tokM ++ tokT)))
                        = (w ++ ',' :: (w2 ++ '"' :: tokM)) ++ tokT by simp]
                    rw [List.getLast?_append, hTlast]
                    rfl
            · rw [if_neg h4] at h
              exact Option.noConfusion h
        · rw [if_neg h3] at h
          exact Option.noConfusion h

theorem shape_arrTail : ∀ (n : Nat) (cs : List Char) (vs : List JsVal) (rest : List Char),
    parseArrTail n cs = some (vs, rest) →
    ∃ tok, tok ≠ [] ∧ cs = tok ++ rest ∧ tok.getLast? = some ']'
  | 0, cs, vs, rest => by
    intro h
    simp [parseArrTail] at h
  | n + 1, cs, vs, rest => by
    intro h
    rw [parseArrTail.eq_def] at h
    simp only [] at h
    obtain ⟨w, hw, hwall⟩ := skipWs_decomp cs
    cases hsw : skipWs cs with
    | nil => rw [hsw] at h; simp at h
    | cons c2 r2 =>
      rw [hsw] at h
      simp only [] at h
      by_cases h2 : c2 = ']'
      · rw [if_pos h2] at h
        obtain ⟨hv, hr⟩ := Prod.mk.injEq .. ▸ Option.some.inj h
        subst hr
        refine ⟨w ++ [']'], by simp, ?_, List.getLast?_concat _⟩
        rw [hw, hsw, h2]
        simp
      · rw [if_neg h2] at h
        by_cases h3 : c2 = ','
        · rw [if_pos h3] at h
          rcases hm : parseValue n (skipWs r2) with _ | ⟨v1, r3⟩
          · rw [hm] at h; simp at h
          · rw [hm] at h
            simp only [] at h
            rcases ht : parseArrTail n r3 with _ | ⟨vs2, r4⟩
            · rw [ht] at h; simp at h
            · rw [ht] at h
              simp only [] at h
              obtain ⟨hv, hr⟩ := Prod.mk.injEq .. ▸ Option.some.inj h
              subst hr
              obtain ⟨w2, hw2, hw2all⟩ := skipWs_decomp r2
              obtain ⟨tokV, hVne, hVdec, _⟩ := shape_value n (skipWs r2) v1 r3 hm
              obtain ⟨tokT, hTne, hTdec, hTlast⟩ := shape_arrTail n r3 vs2 r4 ht
              refine ⟨w ++ ',' :: (w2 ++ (tokV ++ tokT)), by simp, ?_, ?_⟩
              · rw [hw, hsw, h3, hw2, hVdec, hTdec]
                simp
              · rw [show (w ++ ',' :: (w2 ++ (tokV ++ tokT)))
                    = (w ++ ',' :: (w2 ++ tokV)) ++ tokT by simp]
                rw [List.getLast?_append, hTlast]
                rfl
        · rw [if_neg h3] at h
          exact Option.noConfusion h

end

theorem numCont_not_delim {c : Char} (h : numContChar c = true) :
    ¬(c = '{') ∧ ¬(c = '[') ∧ ¬(c = '"') ∧
      ¬(c = 't') ∧ ¬(c = 'f') ∧ ¬(c = 'n') := by
  refine ⟨?_, ?_, ?_, ?_, ?_, ?_⟩ <;>
    [by_cases hx : c = '{'; by_cases hx : c = '['; by_cases hx : c = '"';
     by_cases hx : c = 't'; by_cases hx : c = 'f'; by_cases hx : c = 'n'] <;>
    first
      | (subst hx; exact absurd h (by decide))
      | exact hx

theorem skipWs_seg {r2 tokV r3 : List Char} (h : skipWs r2 = tokV ++ r3)
    (hne : tokV ≠ []) (Y : List Char) : skipWs (tokV ++ Y) = tokV ++ Y := by
  cases tokV with
  | nil => exact absurd rfl hne
  | cons t1 tv =>
    have hh : skipWs r2 = t1 :: (tv ++ r3) := by simpa using h
    have hws := skipWs_head_not_ws hh
    simp [skipWs_cons_not_ws _ hws]


mutual

theorem frame_value : ∀ (n : Nat) (cs : List Char) (v : JsVal) (rest : List Char),
    parseValue n cs = some (v, rest) → ∀ (tok Y : List Char), cs = tok ++ rest →
    boundaryOK rest Y → parseValue n (tok ++ Y) = some (v, Y)
  | 0, cs, v, rest => by
    intro h
    simp [parseValue] at h
  | n + 1, cs, v, rest => by
    intro h tok Y hd hb
    cases cs with
    | nil => rw [parseValue.eq_def] at h; simp at h
    | cons c rest0 =>
      rw [parseValue.eq_def] at h
      simp only [] at h
      obtain ⟨w, hw, hwall⟩ := skipWs_decomp rest0
      by_cases h1 : c = '{'
      · rw [if_pos h1] at h
        cases hsw : skipWs rest0 with
        | nil => rw [hsw] at h; simp at h
        | cons c2 r2 =>
          rw [hsw] at h
          simp only [] at h
          by_cases h2 : c2 = '}'
          · rw [if_pos h2] at h
            obtain ⟨hv, hr⟩ := Prod.mk.injEq .. ▸ Option.some.inj h
            subst hr
            have hcan : tok ++ r2 = ('{' :: (w ++ ['}'])) ++ r2 := by
              rw [← hd, h1, hw, hsw, h2]
              simp
            have htok : tok = '{' :: (w ++ ['}']) := List.append_cancel_right hcan
            subst htok
            rw [show ('{' :: (w ++ ['}'])) ++ Y = '{' :: (w ++ ('}' :: Y)) by simp]
            rw [parseValue.eq_def]
            simp only []
            simp only [Char.reduceEq, reduceIte]
            rw [skipWs_append_all _ hwall, skipWs_cons_not_ws _ (by decide : wsChar '}' = false)]
            simp only []
            simp only [Char.reduceEq, reduceIte]
            rw [← hv]
          · rw [if_neg h2] at h
            by_cases h3 : c2 = '"'
            · rw [if_pos h3] at h
              rcases hm : parseMember n r2 with _ | ⟨kv, r3⟩
              · rw [hm] at h; simp at h
              · rw [hm] at h
                simp only [] at h
                rcases ht : parseObjTail n r3 with _ | ⟨ms, r4⟩
                · rw [ht] at h; simp at h
                · rw [ht] at h
                  simp only [] at h
                  obtain ⟨hv, hr⟩ := Prod.mk.injEq .. ▸ Option.some.inj h
                  subst hr
                  obtain ⟨tokM, hMne, hMdec⟩ := shape_member n r2 kv r3 hm
                  obtain ⟨tokT, hTne, hTdec, hTlast⟩ := shape_objTail n r3 ms r4 ht
                  have hcan : tok ++ r4 = ('{' :: (w ++ '"' :: (tokM ++ tokT))) ++ r4 := by
                    rw [← hd, h1, hw, hsw, h3, hMdec, hTdec]
                    simp
                  have htok : tok = '{' :: (w ++ '"' :: (tokM ++ tokT)) :=
                    List.append_cancel_right hcan
                  subst htok
                  have hbM : boundaryOK r3 (tokT ++ Y) := by
                    refine Or.inl ?_
                    rw [hTdec]
                    exact heads_eq_of_append tokT r4 Y hTne
                  have hM2 := frame_member n r2 kv r3 hm tokM (tokT ++ Y) hMdec hbM
                  have hT2 := frame_objTail n r3 ms r4 ht tokT Y hTdec hb
                  rw [show ('{' :: (w ++ '"' :: (tokM ++ tokT))) ++ Y
                      = '{' :: (w ++ ('"' :: (tokM ++ (tokT ++ Y)))) by simp]
                  rw [parseValue.eq_def]
                  simp only []
                  simp only [Char.reduceEq, reduceIte]
                  rw [skipWs_append_all _ hwall,
                    skipWs_cons_not_ws _ (by decide : wsChar '"' = false)]
                  simp only []
                  simp only [Char.reduceEq, reduceIte]
                  rw [hM2]
                  simp only []
                  rw [hT2]
                  simp only []
                  rw [← hv]
            · rw [if_neg h3] at h
              exact Option.noConfusion h
      · by_cases h4 : c = '['
        · rw [if_neg h1, if_pos h4] at h
          cases hsw : skipWs rest0 with
          | nil => rw [hsw] at h; simp at h
          | cons c2 r2 =>
            rw [hsw] at h
            simp only [] at h
            by_cases h2 : c2 = ']'
            · rw [if_pos h2] at h
              obtain ⟨hv, hr⟩ := Prod.mk.injEq .. ▸ Option.some.inj h
              subst hr
              have hcan : tok ++ r2 = ('[' :: (w ++ [']'])) ++ r2 := by
                rw [← hd, h4, hw, hsw, h2]
                simp
              have htok : tok = '[' :: (w ++ [']']) := List.append_cancel_right hcan
              subst htok
              rw [show ('[' :: (w ++ [']'])) ++ Y = '[' :: (w ++ (']' :: Y)) by simp]
              rw [parseValue.eq_def]
              simp only []
              simp only [Char.reduceEq, reduceIte]
              rw [skipWs_append_all _ hwall, skipWs_cons_not_ws _ (by decide : wsChar ']' = false)]
              simp only []
              simp only [Char.reduceEq, reduceIte]
              rw [← hv]
            · rw [if_neg h2] at h
              rcases hm : parseValue n (c2 :: r2) with _ | ⟨v1, r3⟩
              · rw [hm] at h; simp at h
              · rw [hm] at h
                simp only [] at h
                rcases ht : parseArrTail n r3 with _ | ⟨vs, r4⟩
                · rw [ht] at h; simp at h
                · rw [ht] at h
                  simp only [] at h
                  obtain ⟨hv, hr⟩ := Prod.mk.injEq .. ▸ Option.some.inj h
                  subst hr
                  obtain ⟨tokV, hVne, hVdec, _⟩ := shape_value n (c2 :: r2) v1 r3 hm
                  obtain ⟨tokT, hTne, hTdec, hTlast⟩ := shape_arrTail n r3 vs r4 ht
                  have hcan : tok ++ r4 = ('[' :: (w ++ (tokV ++ tokT))) ++ r4 := by
                    rw [← hd, h4, hw, hsw]
                    rw [show (c2 :: r2) = tokV ++ r3 from hVdec, hTdec]
                    simp
                  have htok : tok = '[' :: (w ++ (tokV ++ tokT)) :=
                    List.append_cancel_right hcan
                  subst htok
                  have hbV : boundaryOK r3 (tokT ++ Y) := by
                    refine Or.inl ?_
                    rw [hTdec]
                    exact heads_eq_of_append tokT r4 Y hTne
                  have hV2 := frame_value n (c2 :: r2) v1 r3 hm tokV (tokT ++ Y) hVdec hbV
                  have hT2 := frame_arrTail n r3 vs r4 ht tokT Y hTdec hb
                  obtain ⟨tv, htv⟩ : ∃ tv, tokV = c2 :: tv := by
                    cases tokV with
                    | nil => exact absurd rfl hVne
                    | cons t1 tv =>
                      have hh := hVdec
                      rw [List.cons_append] at hh
                      injection hh with ht1 _
                      exact ⟨tv, by rw [ht1]⟩
                  rw [show ('[' :: (w ++ (tokV ++ tokT))) ++ Y
                      = '[' :: (w ++ (tokV ++ (tokT ++ Y))) by simp]
                  rw [parseValue.eq_def]
                  simp only []
                  simp only [Char.reduceEq, reduceIte]
                  rw [skipWs_append_all _ hwall]
                  rw [skipWs_seg (hsw.trans hVdec) hVne (tokT ++ Y)]
                  rw [htv]
                  simp only [List.cons_append]
                  rw [if_neg h2]
                  rw [htv] at hV2
                  simp only [List.cons_append] at hV2
                  rw [hV2]
                  simp only []
                  rw [hT2]
                  simp only []
                  rw [← hv]
        · by_cases h5 : c = '"'
          · rw [if_neg h1, if_neg h4, if_pos h5] at h
            rcases hs : parseStrBody rest0 (String.mk []) with _ | ⟨s, r2⟩
            · rw [hs] at h; simp at h
            · rw [hs] at h
              simp only [] at h
              obtain ⟨hv, hr⟩ := Prod.mk.injEq .. ▸ Option.some.inj h
              subst hr
              obtain ⟨tokS, hSne, hSdec, hSlast⟩ := parseStrBody_shape rest0 _ s r2 hs
              have hcan : tok ++ r2 = ('"' :: tokS) ++ r2 := by
                rw [← hd, h5, hSdec]
                simp
              have htok : tok = '"' :: tokS := List.append_cancel_right hcan
              subst htok
              have hS2 := parseStrBody_frame rest0 (String.mk []) s r2 tokS Y hs hSdec
              rw [show ('"' :: tokS) ++ Y = '"' :: (tokS ++ Y) by simp]
              rw [parseValue.eq_def]
              simp only []
              simp only [Char.reduceEq, reduceIte]
              rw [hS2]
              simp only []
              rw [← hv]
          · by_cases h6 : c = 't'
            · rw [if_neg h1, if_neg h4, if_neg h5, if_pos h6] at h
              by_cases h7 : rest0.take 3 = ['r', 'u', 'e']
              · rw [if_pos h7] at h
                obtain ⟨hv, hr⟩ := Prod.mk.injEq .. ▸ Option.some.inj h
                subst hr
                have hcan : tok ++ rest0.drop 3 = ['t', 'r', 'u', 'e'] ++ rest0.drop 3 := by
                  rw [← hd, h6]
                  rw [show (['t', 'r', 'u', 'e'] : List Char) ++ rest0.drop 3
                      = 't' :: (['r', 'u', 'e'] ++ rest0.drop 3) by simp]
                  rw [← h7, List.take_append_drop]
                have htok : tok = ['t', 'r', 'u', 'e'] := List.append_cancel_right hcan
                subst htok
                rw [show (['t', 'r', 'u', 'e'] : List Char) ++ Y
                    = 't' :: ('r' :: 'u' :: 'e' :: Y) by simp]
                rw [parseValue.eq_def]
                simp only []
                simp only [Char.reduceEq, reduceIte]
                rw [if_pos (show List.take 3 ('r' :: 'u' :: 'e' :: Y) = ['r', 'u', 'e'] from rfl)]
                rw [← hv]
                rfl
              · rw [if_neg h7] at h
                exact Option.noConfusion h
            · by_cases h8 : c = 'f'
              · rw [if_neg h1, if_neg h4, if_neg h5, if_neg h6, if_pos h8] at h
                by_cases h7 : rest0.take 4 = ['a', 'l', 's', 'e']
                · rw [if_pos h7] at h
                  obtain ⟨hv, hr⟩ := Prod.mk.injEq .. ▸ Option.some.inj h
                  subst hr
                  have hcan : tok ++ rest0.drop 4
                      = ['f', 'a', 'l', 's', 'e'] ++ rest0.drop 4 := by
                    rw [← hd, h8]
                    rw [show (['f', 'a', 'l', 's', 'e'] : List Char) ++ rest0.drop 4
                        = 'f' :: (['a', 'l', 's', 'e'] ++ rest0.drop 4) by simp]
                    rw [← h7, List.take_append_drop]
                  have htok : tok = ['f', 'a', 'l', 's', 'e'] := List.append_cancel_right hcan
                  subst htok
                  rw [show (['f', 'a', 'l', 's', 'e'] : List Char) ++ Y
                      = 'f' :: ('a' :: 'l' :: 's' :: 'e' :: Y) by simp]
                  rw [parseValue.eq_def]
                  simp only []
                  simp only [Char.reduceEq, reduceIte]
                  rw [if_pos (show List.take 4 ('a' :: 'l' :: 's' :: 'e' :: Y)
                      = ['a', 'l', 's', 'e'] from rfl)]
                  rw [← hv]
                  rfl
                · rw [if_neg h7] at h
                  exact Option.noConfusion h
              · by_cases h9 : c = 'n'
                · rw [if_neg h1, if_neg h4, if_neg h5, if_neg h6, if_neg h8, if_pos h9] at h
                  by_cases h7 : rest0.take 3 = ['u', 'l', 'l']
                  · rw [if_pos h7] at h
                    obtain ⟨hv, hr⟩ := Prod.mk.injEq .. ▸ Option.some.inj h
                    subst hr
                    have hcan : tok ++ rest0.drop 3 = ['n', 'u', 'l', 'l'] ++ rest0.drop 3 := by
                      rw [← hd, h9]
                      rw [show (['n', 'u', 'l', 'l'] : List Char) ++ rest0.drop 3
                          = 'n' :: (['u', 'l', 'l'] ++ rest0.drop 3) by simp]
                      rw [← h7, List.take_append_drop]
                    have htok : tok = ['n', 'u', 'l', 'l'] := List.append_cancel_right hcan
                    subst htok
                    rw [show (['n', 'u', 'l', 'l'] : List Char) ++ Y
                        = 'n' :: ('u' :: 'l' :: 'l' :: Y) by simp]
                    rw [parseValue.eq_def]
                    simp only []
                    simp only [Char.reduceEq, reduceIte]
                    rw [if_pos (show List.take 3 ('u' :: 'l' :: 'l' :: Y) = ['u', 'l', 'l'] from rfl)]
                    rw [← hv]
                    rfl
                  · rw [if_neg h7] at h
                    exact Option.noConfusion h
                · rw [if_neg h1, if_neg h4, if_neg h5, if_neg h6, if_neg h8, if_neg h9] at h
                  obtain ⟨tokN, hneN, hdecN, hcharsN, hvnum, hframeN⟩ := parseNum_main h
                  have hcan : tok ++ rest = tokN ++ rest := by
                    rw [← hd]
                    exact hdecN
                  have htok : tok = tokN := List.append_cancel_right hcan
                  rw [htok]
                  have hfr := hframeN Y hb
                  obtain ⟨tn, htn⟩ : ∃ tn, tokN = c :: tn := by
                    cases tokN with
                    | nil => exact absurd rfl hneN
                    | cons t1 tn =>
                      have hh := hdecN
                      rw [List.cons_append] at hh
                      injection hh with ht1 _
                      exact ⟨tn, by rw [ht1]⟩
                  have hcn : numContChar c = true := by
                    refine hcharsN c ?_
                    rw [htn]
                    exact List.mem_cons_self c tn
                  obtain ⟨d1, d2, d3, d4, d5, d6⟩ := numCont_not_delim hcn
                  rw [htn]
                  simp only [List.cons_append]
                  rw [parseValue.eq_def]
                  simp only []
                  rw [if_neg d1, if_neg d2, if_neg d3, if_neg d4, if_neg d5, if_neg d6]
                  rw [htn] at hfr
                  simp only [List.cons_append] at hfr
                  exact hfr

theorem frame_member : ∀ (n : Nat) (cs : List Char) (kv : String × JsVal) (rest : List Char),
    parseMember n cs = some (kv, rest) → ∀ (tok Y : List Char), cs = tok ++ rest →
    boundaryOK rest Y → parseMember n (tok ++ Y) = some (kv, Y)
  | 0, cs, kv, rest => by
    intro h
    simp [parseMember] at h
  | n + 1, cs, kv, rest => by
    intro h tok Y hd hb
    rw [parseMember.eq_def] at h
    simp only [] at h
    rcases hs : parseStrBody cs (String.mk []) with _ | ⟨k, r1⟩
    · rw [hs] at h; simp at h
    · rw [hs] at h
      simp only [] at h
      obtain ⟨w1, hw1, hw1all⟩ := skipWs_decomp r1
      cases hsw : skipWs r1 with
      | nil => rw [hsw] at h; simp at h
      | cons c2 r2 =>
        rw [hsw] at h
        simp only [] at h
        by_cases h2 : c2 = ':'
        · rw [if_pos h2] at h
          rcases hv : parseValue n (skipWs r2) with _ | ⟨v1, r3⟩
          · rw [hv] at h; simp at h
          · rw [hv] at h
            simp only [] at h
            obtain ⟨hkv, hr⟩ := Prod.mk.injEq .. ▸ Option.some.inj h
            subst hr
            obtain ⟨tokS, hSne, hSdec, _⟩ := parseStrBody_shape cs _ k r1 hs
            obtain ⟨w2, hw2, hw2all⟩ := skipWs_decomp r2
            obtain ⟨tokV, hVne, hVdec, _⟩ := shape_value n (skipWs r2) v1 r3 hv
            have hcan : tok ++ r3 = (tokS ++ (w1 ++ ':' :: (w2 ++ tokV))) ++ r3 := by
              rw [← hd, hSdec, hw1, hsw, h2, hw2, hVdec]
              simp
            have htok : tok = tokS ++ (w1 ++ ':' :: (w2 ++ tokV)) :=
              List.append_cancel_right hcan
            subst htok
            have hS2 := parseStrBody_frame cs (String.mk []) k r1 tokS
              (w1 ++ ':' :: (w2 ++ (tokV ++ Y))) hs hSdec
            have hV2 := frame_value n (skipWs r2) v1 r3 hv tokV Y hVdec hb
            rw [show (tokS ++ (w1 ++ ':' :: (w2 ++ tokV))) ++ Y
                = tokS ++ (w1 ++ ':' :: (w2 ++ (tokV ++ Y))) by simp]
            rw [parseMember.eq_def]
            simp only []
            rw [hS2]
            simp only []
            rw [skipWs_append_all _ hw1all,
              skipWs_cons_not_ws _ (by decide : wsChar ':' = false)]
            simp only []
            simp only [Char.reduceEq, reduceIte]
            rw [skipWs_append_all _ hw2all]
            rw [skipWs_seg hVdec hVne Y]
            rw [hV2]
            simp only []
            rw [← hkv]
        · rw [if_neg h2] at h
          exact Option.noConfusion h

theorem frame_objTail : ∀ (n : Nat) (cs : List Char) (ms : List (String × JsVal)) (rest : List Char),
    parseObjTail n cs = some (ms, rest) → ∀ (tok Y : List Char), cs = tok ++ rest →
    boundaryOK rest Y → parseObjTail n (tok ++ Y) = some (ms, Y)
  | 0, cs, ms, rest => by
    intro h
    simp [parseObjTail] at h
  | n + 1, cs, ms, rest => by
    intro h tok Y hd hb
    rw [parseObjTail.eq_def] at h
    simp only [] at h
    obtain ⟨w, hw, hwall⟩ := skipWs_decomp cs
    cases hsw : skipWs cs with
    | nil => rw [hsw] at h; simp at h
    | cons c2 r2 =>
      rw [hsw] at h
      simp only [] at h
      by_cases h2 : c2 = '}'
      · rw [if_pos h2] at h
        obtain ⟨hv, hr⟩ := Prod.mk.injEq .. ▸ Option.some.inj h
        subst hr
        have hcan : tok ++ r2 = (w ++ ['}']) ++ r2 := by
          rw [← hd, hw, hsw, h2]
          simp
        have htok : tok = w ++ ['}'] := List.append_cancel_right hcan
        subst htok
        rw [show (w ++ ['}']) ++ Y = w ++ ('}' :: Y) by simp]
        rw [parseObjTail.eq_def]
        simp only []
        rw [skipWs_append_all _ hwall, skipWs_cons_not_ws _ (by decide : wsChar '}' = false)]
        simp only []
        simp only [Char.reduceEq, reduceIte]
        rw [← hv]
      · rw [if_neg h2] at h
        by_cases h3 : c2 = ','
        · rw [if_pos h3] at h
          obtain ⟨w2, hw2, hw2all⟩ := skipWs_decomp r2
          cases hsw2 : skipWs r2 with
          | nil => rw [hsw2] at h; simp at h
          | cons c3 r3 =>
            rw [hsw2] at h
            simp only [] at h
            by_cases h4 : c3 = '"'
            · rw [if_pos h4] at h
              rcases hm : parseMember n r3 with _ | ⟨kv, r4⟩
              · rw [hm] at h; simp at h
              · rw [hm] at h
                simp only [] at h
                rcases ht : parseObjTail n r4 with _ | ⟨ms2, r5⟩
                · rw [ht] at h; simp at h
                · rw [ht] at h
                  simp only [] at h
                  obtain ⟨hv, hr⟩ := Prod.mk.injEq .. ▸ Option.some.inj h
                  subst hr
                  obtain ⟨tokM, hMne, hMdec⟩ := shape_member n r3 kv r4 hm
                  obtain ⟨tokT, hTne, hTdec, hTlast⟩ := shape_objTail n r4 ms2 r5 ht
                  have hcan : tok ++ r5
                      = (w ++ ',' :: (w2 ++ '"' :: (tokM ++ tokT))) ++ r5 := by
                    rw [← hd, hw, hsw, h3, hw2, hsw2, h4, hMdec, hTdec]
                    simp
                  have htok : tok = w ++ ',' :: (w2 ++ '"' :: (tokM ++ tokT)) :=
                    List.append_cancel_right hcan
                  subst htok
                  have hbM : boundaryOK r4 (tokT ++ Y) := by
                    refine Or.inl ?_
                    rw [hTdec]
                    exact heads_eq_of_append tokT r5 Y hTne
                  have hM2 := frame_member n r3 kv r4 hm tokM (tokT ++ Y) hMdec hbM
                  have hT2 := frame_objTail n r4 ms2 r5 ht tokT Y hTdec hb
                  rw [show (w ++ ',' :: (w2 ++ '"' :: (tokM ++ tokT))) ++ Y
                      = w ++ (',' :: (w2 ++ ('"' :: (tokM ++ (tokT ++ Y))))) by simp]
                  rw [parseObjTail.eq_def]
                  simp only []
                  rw [skipWs_append_all _ hwall,
                    skipWs_cons_not_ws _ (by decide : wsChar ',' = false)]
                  simp only []
                  simp only [Char.reduceEq, reduceIte]
                  rw [skipWs_append_all _ hw2all,
                    skipWs_cons_not_ws _ (by decide : wsChar '"' = false)]
                  simp only []
                  simp only [Char.reduceEq, reduceIte]
                  rw [hM2]
                  simp only []
                  rw [hT2]
                  simp only []
                  rw [← hv]
            · rw [if_neg h4] at h
              exact Option.noConfusion h
        · rw [if_neg h3] at h
          exact Option.noConfusion h

theorem frame_arrTail : ∀ (n : Nat) (cs : List Char) (vs : List JsVal) (rest : List Char),
    parseArrTail n cs = some (vs, rest) → ∀ (tok Y : List Char), cs = tok ++ rest →
    boundaryOK rest Y → parseArrTail n (tok ++ Y) = some (vs, Y)
  | 0, cs, vs, rest => by
    intro h
    simp [parseArrTail] at h
  | n + 1, cs, vs, rest => by
    intro h tok Y hd hb
    rw [parseArrTail.eq_def] at h
    simp only [] at h
    obtain ⟨w, hw, hwall⟩ := skipWs_decomp cs
    cases hsw : skipWs cs with
    | nil => rw [hsw] at h; simp at h
    | cons c2 r2 =>
      rw [hsw] at h
      simp only [] at h
      by_cases h2 : c2 = ']'
      · rw [if_pos h2] at h
        obtain ⟨hv, hr⟩ := Prod.mk.injEq .. ▸ Option.some.inj h
        subst hr
        have hcan : tok ++ r2 = (w ++ [']']) ++ r2 := by
          rw [← hd, hw, hsw, h2]
          simp
        have htok : tok = w ++ [']'] := List.append_cancel_right hcan
        subst htok
        rw [show (w ++ [']']) ++ Y = w ++ (']' :: Y) by simp]
        rw [parseArrTail.eq_def]
        simp only []
        rw [skipWs_append_all _ hwall, skipWs_cons_not_ws _ (by decide : wsChar ']' = false)]
        simp only []
        simp only [Char.reduceEq, reduceIte]
        rw [← hv]
      · rw [if_neg h2] at h
        by_cases h3 : c2 = ','
        · rw [if_pos h3] at h
          rcases hm : parseValue n (skipWs r2) with _ | ⟨v1, r3⟩
          · rw [hm] at h; simp at h
          · rw [hm] at h
            simp only [] at h
            rcases ht : parseArrTail n r3 with _ | ⟨vs2, r4⟩
            · rw [ht] at h; simp at h
            · rw [ht] at h
              simp only [] at h
              obtain ⟨hv, hr⟩ := Prod.mk.injEq .. ▸ Option.some.inj h
              subst hr
              obtain ⟨w2, hw2, hw2all⟩ := skipWs_decomp r2
              obtain ⟨tokV, hVne, hVdec, _⟩ := shape_value n (skipWs r2) v1 r3 hm
              obtain ⟨tokT, hTne, hTdec, hTlast⟩ := shape_arrTail n r3 vs2 r4 ht
              have hcan : tok ++ r4 = (w ++ ',' :: (w2 ++ (tokV ++ tokT))) ++ r4 := by
                rw [← hd, hw, hsw, h3, hw2, hVdec, hTdec]
                simp
              have htok : tok = w ++ ',' :: (w2 ++ (tokV ++ tokT)) :=
                List.append_cancel_right hcan
              subst htok
              have hbV : boundaryOK r3 (tokT ++ Y) := by
                refine Or.inl ?_
                rw [hTdec]
                exact heads_eq_of_append tokT r4 Y hTne
              have hV2 := frame_value n (skipWs r2) v1 r3 hm tokV (tokT ++ Y) hVdec hbV
              have hT2 := frame_arrTail n r3 vs2 r4 ht tokT Y hTdec hb
              rw [show (w ++ ',' :: (w2 ++ (tokV ++ tokT))) ++ Y
                  = w ++ (',' :: (w2 ++ (tokV ++ (tokT ++ Y)))) by simp]
              rw [parseArrTail.eq_def]
              simp only []
              rw [skipWs_append_all _ hwall,
                skipWs_cons_not_ws _ (by decide : wsChar ',' = false)]
              simp only []
              simp only [Char.reduceEq, reduceIte]
              rw [skipWs_append_all _ hw2all]
              rw [skipWs_seg hVdec hVne (tokT ++ Y)]
              rw [hV2]
              simp only []
              rw [hT2]
              simp only []
              rw [← hv]
        · rw [if_neg h3] at h
          exact Option.noConfusion h

end

mutual

theorem suff_value : ∀ (n : Nat) (cs : List Char) (v : JsVal) (rest : List Char),
    parseValue n cs = some (v, rest) → ∀ m, cs.length + 1 ≤ m →
    parseValue m cs = some (v, rest)
  | 0, cs, v, rest => by
    intro h
    simp [parseValue] at h
  | n + 1, cs, v, rest => by
    intro h m hm
    cases m with
    | zero => omega
    | succ m2 =>
    cases cs with
    | nil => rw [parseValue.eq_def] at h; simp at h
    | cons c rest0 =>
      have hm2 : rest0.length + 1 ≤ m2 := by
        simp only [List.length_cons] at hm
        omega
      rw [parseValue.eq_def] at h
      simp only [] at h
      rw [parseValue.eq_def]
      simp only []
      by_cases h1 : c = '{'
      · rw [if_pos h1] at h ⊢
        cases hsw : skipWs rest0 with
        | nil => rw [hsw] at h; simp at h
        | cons c2 r2 =>
          rw [hsw] at h
          simp only [] at h ⊢
          have hl2 : r2.length + 1 ≤ rest0.length := by
            have hl := skipWs_length_le rest0
            rw [hsw] at hl
            simp only [List.length_cons] at hl
            omega
          by_cases h2 : c2 = '}'
          · rw [if_pos h2] at h ⊢
            exact h
          · rw [if_neg h2] at h ⊢
            by_cases h3 : c2 = '"'
            · rw [if_pos h3] at h ⊢
              rcases hmm : parseMember n r2 with _ | ⟨kv, r3⟩
              · rw [hmm] at h; simp at h
              · rw [hmm] at h
                simp only [] at h
                obtain ⟨tokM, hMne, hMdec⟩ := shape_member n r2 kv r3 hmm
                have hl3 : r3.length ≤ r2.length := by
                  rw [hMdec]
                  simp
                rw [suff_member n r2 kv r3 hmm m2 (by omega)]
                simp only []
                rcases ht : parseObjTail n r3 with _ | ⟨ms, r4⟩
                · rw [ht] at h; simp at h
                · rw [ht] at h
                  simp only [] at h
                  rw [suff_objTail n r3 ms r4 ht m2 (by omega)]
                  simp only []
                  exact h
            · rw [if_neg h3] at h
              exact Option.noConfusion h
      · by_cases h4 : c = '['
        · rw [if_neg h1, if_pos h4] at h ⊢
          cases hsw : skipWs rest0 with
          | nil => rw [hsw] at h; simp at h
          | cons c2 r2 =>
            rw [hsw] at h
            simp only [] at h ⊢
            have hl2 : r2.length + 1 ≤ rest0.length := by
              have hl := skipWs_length_le rest0
              rw [hsw] at hl
              simp only [List.length_cons] at hl
              omega
            by_cases h2 : c2 = ']'
            · rw [if_pos h2] at h ⊢
              exact h
            · rw [if_neg h2] at h ⊢
              rcases hmm : parseValue n (c2 :: r2) with _ | ⟨v1, r3⟩
              · rw [hmm] at h; simp at h
              · rw [hmm] at h
                simp only [] at h
                obtain ⟨tokV, hVne, hVdec, _⟩ := shape_value n (c2 :: r2) v1 r3 hmm
                have hl3 : r3.length ≤ r2.length := by
                  have : (c2 :: r2).length = tokV.length + r3.length := by
                    rw [hVdec]
                    simp
                  cases tokV with
                  | nil => exact absurd rfl hVne
                  | cons t1 tv =>
                    simp only [List.length_cons] at this
                    omega
                rw [suff_value n (c2 :: r2) v1 r3 hmm m2 (by simp; omega)]
                simp only []
                rcases ht : parseArrTail n r3 with _ | ⟨vs, r4⟩
                · rw [ht] at h; simp at h
                · rw [ht] at h
                  simp only [] at h
                  rw [suff_arrTail n r3 vs r4 ht m2 (by omega)]
                  simp only []
                  exact h
        · by_cases h5 : c = '"'
          · rw [if_neg h1, if_neg h4, if_pos h5] at h ⊢
            exact h
          · by_cases h6 : c = 't'
            · rw [if_neg h1, if_neg h4, if_neg h5, if_pos h6] at h ⊢
              exact h
            · by_cases h8 : c = 'f'
              · rw [if_neg h1, if_neg h4, if_neg h5, if_neg h6, if_pos h8] at h ⊢
                exact h
              · by_cases h9 : c = 'n'
                · rw [if_neg h1, if_neg h4, if_neg h5, if_neg h6, if_neg h8, if_pos h9] at h ⊢
                  exact h
                · rw [if_neg h1, if_neg h4, if_neg h5, if_neg h6, if_neg h8, if_neg h9] at h ⊢
                  exact h

theorem suff_member : ∀ (n : Nat) (cs : List Char) (kv : String × JsVal) (rest : List Char),
    parseMember n cs = some (kv, rest) → ∀ m, cs.length + 1 ≤ m →
    parseMember m cs = some (kv, rest)
  | 0, cs, kv, rest => by
    intro h
    simp [parseMember] at h
  | n + 1, cs, kv, rest => by
    intro h m hm
    cases m with
    | zero => omega
    | succ m2 =>
    rw [parseMember.eq_def] at h
    simp only [] at h
    rw [parseMember.eq_def]
    simp only []
    rcases hs : parseStrBody cs (String.mk []) with _ | ⟨k, r1⟩
    · rw [hs] at h; simp at h
    · rw [hs] at h
      simp only [] at h ⊢
      obtain ⟨tokS, hSne, hSdec, _⟩ := parseStrBody_shape cs _ k r1 hs
      have hl1 : r1.length + 1 ≤ cs.length := by
        rw [hSdec]
        cases tokS with
        | nil => exact absurd rfl hSne
        | cons t1 ts => simp only [List.length_append, List.length_cons]; omega
      cases hsw : skipWs r1 with
      | nil => rw [hsw] at h; simp at h
      | cons c2 r2 =>
        rw [hsw] at h
        simp only [] at h ⊢
        have hl2 : r2.length + 1 ≤ r1.length := by
          have hl := skipWs_length_le r1
          rw [hsw] at hl
          simp only [List.length_cons] at hl
          omega
        by_cases h2 : c2 = ':'
        · rw [if_pos h2] at h ⊢
          rcases hv : parseValue n (skipWs r2) with _ | ⟨v1, r3⟩
          · rw [hv] at h; simp at h
          · rw [hv] at h
            simp only [] at h
            have hl3 : (skipWs r2).length ≤ r2.length := skipWs_length_le r2
            rw [suff_value n (skipWs r2) v1 r3 hv m2 (by omega)]
            simp only []
            exact h
        · rw [if_neg h2] at h
          exact Option.noConfusion h

theorem suff_objTail : ∀ (n : Nat) (cs : List Char) (ms : List (String × JsVal)) (rest : List Char),
    parseObjTail n cs = some (ms, rest) → ∀ m, cs.length + 1 ≤ m →
    parseObjTail m cs = some (ms, rest)
  | 0, cs, ms, rest => by
    intro h
    simp [parseObjTail] at h
  | n + 1, cs, ms, rest => by
    intro h m hm
    cases m with
    | zero => omega
    | succ m2 =>
    rw [parseObjTail.eq_def] at h
    simp only [] at h
    rw [parseObjTail.eq_def]
    simp only []
    cases hsw : skipWs cs with
    | nil => rw [hsw] at h; simp at h
    | cons c2 r2 =>
      rw [hsw] at h
      simp only [] at h ⊢
      have hl2 : r2.length + 1 ≤ cs.length := by
        have hl := skipWs_length_le cs
        rw [hsw] at hl
        simp only [List.length_cons] at hl
        omega
      by_cases h2 : c2 = '}'
      · rw [if_pos h2] at h ⊢
        exact h
      · rw [if_neg h2] at h ⊢
        by_cases h3 : c2 = ','
        · rw [if_pos h3] at h ⊢
          cases hsw2 : skipWs r2 with
          | nil => rw [hsw2] at h; simp at h
          | cons c3 r3 =>
            rw [hsw2] at h
            simp only [] at h ⊢
            have hl3 : r3.length + 1 ≤ r2.length := by
              have hl := skipWs_length_le r2
              rw [hsw2] at hl
              simp only [List.length_cons] at hl
              omega
            by_cases h4 : c3 = '"'
            · rw [if_pos h4] at h ⊢
              rcases hmm : parseMember n r3 with _ | ⟨kv, r4⟩
              · rw [hmm] at h; simp at h
              · rw [hmm] at h
                simp only [] at h
                obtain ⟨tokM, hMne, hMdec⟩ := shape_member n r3 kv r4 hmm
                have hl4 : r4.length ≤ r3.length := by
                  rw [hMdec]
                  simp
                rw [suff_member n r3 kv r4 hmm m2 (by omega)]
                simp only []
                rcases ht : parseObjTail n r4 with _ | ⟨ms2, r5⟩
                · rw [ht] at h; simp at h
                · rw [ht] at h
                  simp only [] at h
                  rw [suff_objTail n r4 ms2 r5 ht m2 (by omega)]
                  simp only []
                  exact h
            · rw [if_neg h4] at h
              exact Option.noConfusion h
        · rw [if_neg h3] at h
          exact Option.noConfusion h

theorem suff_arrTail : ∀ (n : Nat) (cs : List Char) (vs : List JsVal) (rest : List Char),
    parseArrTail n cs = some (vs, rest) → ∀ m, cs.length + 1 ≤ m →
    parseArrTail m cs = some (vs, rest)
  | 0, cs, vs, rest => by
    intro h
    simp [parseArrTail] at h
  | n + 1, cs, vs, rest => by
    intro h m hm
    cases m with
    | zero => omega
    | succ m2 =>
    rw [parseArrTail.eq_def] at h
    simp only [] at h
    rw [parseArrTail.eq_def]
    simp only []
    cases hsw : skipWs cs with
    | nil => rw [hsw] at h; simp at h
    | cons c2 r2 =>
      rw [hsw] at h
      simp only [] at h ⊢
      have hl2 : r2.length + 1 ≤ cs.length := by
        have hl := skipWs_length_le cs
        rw [hsw] at hl
        simp only [List.length_cons] at hl
        omega
      by_cases h2 : c2 = ']'
      · rw [if_pos h2] at h ⊢
        exact h
      · rw [if_neg h2] at h ⊢
        by_cases h3 : c2 = ','
        · rw [if_pos h3] at h ⊢
          rcases hmm : parseValue n (skipWs r2) with _ | ⟨v1, r3⟩
          · rw [hmm] at h; simp at h
          · rw [hmm] at h
            simp only [] at h
            have hlsw : (skipWs r2).length ≤ r2.length := skipWs_length_le r2
            obtain ⟨tokV, hVne, hVdec, _⟩ := shape_value n (skipWs r2) v1 r3 hmm
            have hl3 : r3.length ≤ (skipWs r2).length := by
              rw [hVdec]
              simp
            rw [suff_value n (skipWs r2) v1 r3 hmm m2 (by omega)]
            simp only []
            rcases ht : parseArrTail n r3 with _ | ⟨vs2, r4⟩
            · rw [ht] at h; simp at h
            · rw [ht] at h
              simp only [] at h
              rw [suff_arrTail n r3 vs2 r4 ht m2 (by omega)]
              simp only []
              exact h
        · rw [if_neg h3] at h
          exact Option.noConfusion h

end

theorem headSafe_of_ws {r : List Char} (h : ∀ c ∈ r, wsChar c = true) : headSafe r := by
  intro c hc
  cases r with
  | nil => simp at hc
  | cons a r2 =>
    have ha : a = c := by simpa using hc
    subst ha
    exact ws_not_numCont (h a (List.mem_cons_self a r2))

theorem headSafe_nil : headSafe [] := by
  intro c hc
  simp at hc

theorem parseJsonL_decomp {cs : List Char} {v : JsVal} (h : parseJsonL cs = some v) :
    ∃ w tok r2, cs = w ++ (tok ++ r2) ∧ (∀ c ∈ w, wsChar c = true) ∧
      (∀ c ∈ r2, wsChar c = true) ∧ tok ≠ [] ∧ consumedOk v tok ∧
      parseValue (tok.length + 1) tok = some (v, []) := by
  simp only [parseJsonL] at h
  rcases hpv : parseValue (cs.length + 1) (skipWs cs) with _ | ⟨v1, rest⟩
  · rw [hpv] at h; exact Option.noConfusion h
  · rw [hpv] at h
    simp only [] at h
    by_cases hr : skipWs rest = []
    · rw [if_pos hr] at h
      have hv1 : v1 = v := Option.some.inj h
      subst hv1
      obtain ⟨w, hw, hwall⟩ := skipWs_decomp cs
      obtain ⟨tok, htne, htdec, hok⟩ := shape_value (cs.length + 1) (skipWs cs) _ rest hpv
      have hrall := skipWs_eq_nil hr
      have hb : boundaryOK rest [] := Or.inr ⟨headSafe_of_ws hrall, headSafe_nil⟩
      have hfr := frame_value (cs.length + 1) (skipWs cs) _ rest hpv tok [] htdec hb
      rw [List.append_nil] at hfr
      have hsf := suff_value (cs.length + 1) tok _ [] hfr (tok.length + 1) (Nat.le_refl _)
      exact ⟨w, tok, rest, by rw [hw, htdec], hwall, hrall, htne, hok, hsf⟩
    · rw [if_neg hr] at h; exact Option.noConfusion h

theorem parseJsonL_of_tok {tok : List Char} {v : JsVal} (c0 : Char)
    (hh : tok.head? = some c0) (hws : wsChar c0 = false)
    (hpv : parseValue (tok.length + 1) tok = some (v, [])) :
    parseJsonL tok = some v := by
  cases tok with
  | nil => simp at hh
  | cons c cs2 =>
    have hc : c = c0 := by simpa using hh
    subst hc
    simp only [parseJsonL]
    rw [skipWs_cons_not_ws _ hws]
    rw [hpv]
    simp [skipWs]

theorem firstIdxOf_eq (ch : Char) (a b : List Char) (ha : ∀ c ∈ a, ¬c = ch) :
    firstIdxOf ch (a ++ ch :: b) = some a.length := by
  induction a with
  | nil => simp [firstIdxOf]
  | cons c a2 ih =>
    have hc : ¬c = ch := ha c (List.mem_cons_self c a2)
    simp only [List.cons_append, firstIdxOf, if_neg hc, List.append_eq]
    rw [ih (fun x hx => ha x (List.mem_cons_of_mem _ hx))]
    simp

theorem firstIdxOf_decomp {ch : Char} {t : List Char} : ∀ {i : Nat},
    firstIdxOf ch t = some i → ∃ a b, t = a ++ ch :: b ∧ a.length = i ∧ ∀ c ∈ a, ¬c = ch := by
  induction t with
  | nil => intro i h; simp [firstIdxOf] at h
  | cons c t2 ih =>
    intro i h
    by_cases hc : c = ch
    · rw [firstIdxOf, if_pos hc] at h
      have hi := Option.some.inj h
      exact ⟨[], t2, by simp [hc], by simp [← hi], by simp⟩
    · rw [firstIdxOf, if_neg hc] at h
      rcases hf : firstIdxOf ch t2 with _ | j
      · rw [hf] at h; simp at h
      · rw [hf] at h
        simp only [Option.map_some'] at h
        have hi := Option.some.inj h
        obtain ⟨a, b, hab, halen, hano⟩ := ih hf
        refine ⟨c :: a, b, by simp [hab], ?_, ?_⟩
        · simp only [List.length_cons, halen]
          omega
        · intro x hx
          rcases List.mem_cons.mp hx with hx1 | hx2
          · rw [hx1]; exact hc
          · exact hano x hx2

theorem lastIdxOf_eq (ch : Char) (a b : List Char) (hb : ∀ c ∈ b, ¬c = ch) :
    lastIdxOf ch (a ++ ch :: b) = some a.length := by
  unfold lastIdxOf
  have hrev : (a ++ ch :: b).reverse = b.reverse ++ ch :: a.reverse := by simp
  rw [hrev, firstIdxOf_eq ch b.reverse a.reverse (fun c hc => hb c (by simpa using hc))]
  simp only []
  have hlen : (a ++ ch :: b).length - 1 - b.reverse.length = a.length := by
    simp only [List.length_append, List.length_cons, List.length_reverse]
    omega
  rw [hlen]

theorem lastIdxOf_decomp {ch : Char} {t : List Char} {i : Nat}
    (h : lastIdxOf ch t = some i) :
    ∃ a b, t = a ++ ch :: b ∧ a.length = i ∧ ∀ c ∈ b, ¬c = ch := by
  unfold lastIdxOf at h
  rcases hf : firstIdxOf ch t.reverse with _ | j
  · rw [hf] at h; exact Option.noConfusion h
  · rw [hf] at h
    simp only [] at h
    have hi := Option.some.inj h
    obtain ⟨a, b, hab, halen, hano⟩ := firstIdxOf_decomp hf
    have ht : t = b.reverse ++ ch :: a.reverse := by
      have h2 := congrArg List.reverse hab
      simpa using h2
    refine ⟨b.reverse, a.reverse, ht, ?_, fun c hc => hano c (by simpa using hc)⟩
    have hlen : t.length = b.length + (a.length + 1) := by
      rw [ht]
      simp
    simp only [List.length_reverse]
    omega

theorem take_len_succ (ch : Char) (a b : List Char) :
    (a ++ ch :: b).take (a.length + 1) = a ++ [ch] := by
  induction a with
  | nil => simp
  | cons c a2 ih =>
    simp only [List.cons_append, List.length_cons, List.take_succ_cons]
    rw [ih]

theorem salvage_cases (t : List Char) :
    salvage t = match directStrategy t with
      | some v => some v
      | none =>
        match outerBraceStrategy t with
        | some v => some v
        | none => lastCloseStrategy t := rfl

theorem salvageNoThird_cases (t : List Char) :
    salvageNoThird t = match directStrategy t with
      | some v => some v
      | none => outerBraceStrategy t := rfl

theorem lastClose_implies_outer {t : List Char} {v : JsVal}
    (h : lastCloseStrategy t = some v) : outerBraceStrategy t = some v := by
  unfold lastCloseStrategy at h
  rcases hlc : lastIdxOf '}' t with _ | lc
  · rw [hlc] at h; exact Option.noConfusion h
  · rw [hlc] at h
    simp only [] at h
    by_cases h0 : 0 < lc
    · rw [if_pos h0] at h
      obtain ⟨a, b, hab, halen, hbno⟩ := lastIdxOf_decomp hlc
      have htake : t.take (lc + 1) = a ++ ['}'] := by
        rw [hab, ← halen]
        exact take_len_succ '}' a b
      rw [htake] at h
      obtain ⟨w, tok, r2, hdec, hwall, hrall, htne, hok, hpv⟩ := parseJsonL_decomp h
      have hr2 : r2 = [] := by
        rcases List.eq_nil_or_concat r2 with hnil | ⟨r2i, cz, hcz⟩
        · exact hnil
        · rw [List.concat_eq_append] at hcz
          exfalso
          have h1 : (a ++ ['}']).getLast? = some '}' := List.getLast?_concat a
          rw [hdec, hcz] at h1
          rw [show w ++ (tok ++ (r2i ++ [cz])) = (w ++ tok ++ r2i) ++ [cz] by simp] at h1
          rw [List.getLast?_concat] at h1
          have hcz2 : cz = '}' := Option.some.inj h1
          have hwscz : wsChar cz = true := hrall cz (by rw [hcz]; simp)
          rw [hcz2] at hwscz
          exact absurd hwscz (by decide)
      subst hr2
      rw [List.append_nil] at hdec
      have hlast : tok.getLast? = some '}' := by
        rcases List.eq_nil_or_concat tok with hnil | ⟨toki, cz, hcz⟩
        · exact absurd hnil htne
        · rw [List.concat_eq_append] at hcz
          rw [hcz, List.getLast?_concat]
          have h1 : (a ++ ['}']).getLast? = some '}' := List.getLast?_concat a
          rw [hdec, hcz] at h1
          rw [show w ++ (toki ++ [cz]) = (w ++ toki) ++ [cz] by simp] at h1
          rw [List.getLast?_concat] at h1
          exact h1
      obtain ⟨fields, hvobj⟩ : ∃ fs, v = JsVal.obj fs := by
        cases v with
        | obj fs => exact ⟨fs, rfl⟩
        | arr xs =>
          exfalso
          obtain ⟨_, hl⟩ := hok
          rw [hlast] at hl
          exact absurd (Option.some.inj hl) (by decide)
        | str s0 =>
          exfalso
          obtain ⟨_, hl⟩ := hok
          rw [hlast] at hl
          exact absurd (Option.some.inj hl) (by decide)
        | num s0 =>
          exfalso
          have hmem : '}' ∈ tok := by
            rcases List.eq_nil_or_concat tok with hnil | ⟨toki, cz, hcz⟩
            · exact absurd hnil htne
            · rw [List.concat_eq_append] at hcz
              rw [hcz] at hlast ⊢
              rw [List.getLast?_concat] at hlast
              have hcz2 : cz = '}' := Option.some.inj hlast
              rw [hcz2]
              simp
          have hnum := hok '}' hmem
          exact absurd hnum (by decide)
        | bool bb =>
          exfalso
          cases bb
          · rw [hok] at hlast
            exact absurd hlast (by decide)
          · rw [hok] at hlast
            exact absurd hlast (by decide)
        | null =>
          exfalso
          rw [hok] at hlast
          exact absurd hlast (by decide)
      subst hvobj
      obtain ⟨hhead, _⟩ := hok
      obtain ⟨mid, hmid⟩ : ∃ mid, tok = '{' :: mid := by
        cases tok with
        | nil => exact absurd rfl htne
        | cons c0 tk =>
          have hc0 : c0 = '{' := by simpa using hhead
          exact ⟨tk, by rw [hc0]⟩
      have hmidne : mid ≠ [] := by
        intro hx
        rw [hmid, hx] at hlast
        exact absurd hlast (by decide)
      have ht : t = w ++ (tok ++ b) := by
        rw [hab, show a ++ '}' :: b = (a ++ ['}']) ++ b by simp, hdec]
        simp
      have hfb : firstIdxOf '{' t = some w.length := by
        rw [ht, hmid]
        rw [show w ++ ('{' :: mid ++ b) = w ++ '{' :: (mid ++ b) by simp]
        refine firstIdxOf_eq '{' w (mid ++ b) ?_
        intro c hc hx
        exact (ws_ne_open_brace (hwall c hc)) ▸ hx
      have hlen1 : a.length + 1 = w.length + tok.length := by
        have h2 := congrArg List.length hdec
        simpa using h2
      have htl : 2 ≤ tok.length := by
        have hmp : 0 < mid.length := List.length_pos.mpr hmidne
        rw [hmid]
        simp only [List.length_cons]
        omega
      have hfblb : w.length < lc := by omega
      have hslice : sliceL w.length (lc + 1) t = tok := by
        unfold sliceL
        rw [ht]
        rw [List.drop_left]
        have hl2 : lc + 1 - w.length = tok.length := by omega
        rw [hl2, List.take_left]
      have hpj : parseJsonL tok = some (JsVal.obj fields) := by
        refine parseJsonL_of_tok '{' ?_ (by decide) hpv
        rw [hmid]
        rfl
      unfold outerBraceStrategy
      rw [hfb, hlc]
      simp only []
      rw [if_pos hfblb, hslice]
      exact hpj
    · rw [if_neg h0] at h; exact Option.noConfusion h

theorem noBrace_spec {cs : List Char} (h : noBraceChar cs = true) :
    ∀ c ∈ cs, ¬c = '{' ∧ ¬c = '}' := by
  intro c hc
  simp only [noBraceChar, List.all_eq_true] at h
  have h2 := h c hc
  simp only [Bool.and_eq_true, Bool.not_eq_true', decide_eq_false_iff_not] at h2
  exact h2

theorem outer_recovers {p j s : List Char} {f : List (String × JsVal)}
    (hp : noBraceChar p = true) (hsx : noBraceChar s = true)
    (hj : parseJsonL j = some (JsVal.obj f)) :
    outerBraceStrategy (p ++ j ++ s) = some (JsVal.obj f) := by
  obtain ⟨w, tok, r2, hdec, hwall, hrall, htne, hok, hpv⟩ := parseJsonL_decomp hj
  obtain ⟨hhead, hlast⟩ := hok
  obtain ⟨mid, hmid⟩ : ∃ mid, tok = '{' :: mid := by
    cases tok with
    | nil => exact absurd rfl htne
    | cons c0 tk =>
      have hc0 : c0 = '{' := by simpa using hhead
      exact ⟨tk, by rw [hc0]⟩
  obtain ⟨toki, hczj⟩ : ∃ toki, tok = toki ++ ['}'] := by
    rcases List.eq_nil_or_concat tok with hnil | ⟨toki, cz, hcz⟩
    · exact absurd hnil htne
    · rw [List.concat_eq_append] at hcz
      have h1 := hlast
      rw [hcz, List.getLast?_concat] at h1
      have hcz2 : cz = '}' := Option.some.inj h1
      exact ⟨toki, by rw [hcz, hcz2]⟩
  have htoki0 : 0 < toki.length := by
    cases toki with
    | nil =>
      exfalso
      rw [hczj] at hmid
      simp at hmid
    | cons x xs => simp
  have hfb : firstIdxOf '{' (p ++ j ++ s) = some (p ++ w).length := by
    rw [show p ++ j ++ s = (p ++ w) ++ '{' :: (mid ++ (r2 ++ s)) by rw [hdec, hmid]; simp]
    refine firstIdxOf_eq '{' (p ++ w) (mid ++ (r2 ++ s)) ?_
    intro c hc
    rcases List.mem_append.mp hc with hc1 | hc2
    · exact (noBrace_spec hp c hc1).1
    · intro hx
      exact (ws_ne_open_brace (hwall c hc2)) ▸ hx
  have hlb : lastIdxOf '}' (p ++ j ++ s) = some ((p ++ w) ++ toki).length := by
    rw [show p ++ j ++ s = ((p ++ w) ++ toki) ++ '}' :: (r2 ++ s) by rw [hdec, hczj]; simp]
    refine lastIdxOf_eq '}' ((p ++ w) ++ toki) (r2 ++ s) ?_
    intro c hc
    rcases List.mem_append.mp hc with hc1 | hc2
    · intro hx
      exact (ws_ne_close_brace (hrall c hc1)) ▸ hx
    · exact (noBrace_spec hsx c hc2).2
  have htokl : tok.length = toki.length + 1 := by
    rw [hczj]
    simp
  have hfblb : (p ++ w).length < ((p ++ w) ++ toki).length := by
    simp only [List.length_append]
    omega
  have hslice : sliceL (p ++ w).length (((p ++ w) ++ toki).length + 1) (p ++ j ++ s)
      = tok := by
    unfold sliceL
    rw [show p ++ j ++ s = (p ++ w) ++ (tok ++ (r2 ++ s)) by rw [hdec]; simp]
    rw [List.drop_left]
    have hl2 : ((p ++ w) ++ toki).length + 1 - (p ++ w).length = tok.length := by
      simp only [List.length_append]
      omega
    rw [hl2, List.take_left]
  have hpj : parseJsonL tok = some (JsVal.obj f) := by
    refine parseJsonL_of_tok '{' ?_ (by decide) hpv
    rw [hmid]
    rfl
  unfold outerBraceStrategy
  rw [hfb, hlb]
  simp only []
  rw [if_pos hfblb, hslice]
  exact hpj

/-- C10: removing the third (last-closing-brace) salvage strategy changes
nothing — for every input text the reduced chain returns exactly what the
full chain returns, because any prefix-to-last-brace slice that parses
forces the outer-brace slice to parse to the same value first. -/
theorem last_close_strategy_redundant (t : List Char) :
    salvageNoThird t = salvage t := by
  rw [salvage_cases, salvageNoThird_cases]
  rcases hd : directStrategy t with _ | v
  · simp only []
    rcases ho : outerBraceStrategy t with _ | v2
    · simp only []
      rcases hl : lastCloseStrategy t with _ | v3
      · rfl
      · exfalso
        have hco := lastClose_implies_outer hl
        rw [ho] at hco
        exact Option.noConfusion hco
    · rfl
  · rfl

/-- C5 (amended): if the prefix and suffix contain no brace characters and
the combined text does not itself parse as JSON directly, the outer-brace
strategy recovers exactly the embedded JSON object, and the salvage parser
returns it. -/
theorem outer_brace_recovers_embedded_object {p j s : List Char}
    {f : List (String × JsVal)}
    (hp : noBraceChar p = true) (hs2 : noBraceChar s = true)
    (hj : parseJsonL j = some (JsVal.obj f))
    (hdir : parseJsonL (p ++ j ++ s) = none) :
    outerBraceStrategy (p ++ j ++ s) = some (JsVal.obj f) ∧
    salvage (p ++ j ++ s) = some (JsVal.obj f) := by
  have ho := outer_recovers hp hs2 hj
  refine ⟨ho, ?_⟩
  rw [salvage_cases]
  rw [show directStrategy (p ++ j ++ s) = none from hdir]
  simp only []
  rw [ho]

/-- Witness for the amended C5 theorem at the concrete text x{}y. -/
theorem outer_brace_recovers_embedded_object_witness :
    noBraceChar ("x".data) = true ∧ noBraceChar ("y".data) = true ∧
    parseJsonL ("\x7b\x7d".data) = some (JsVal.obj []) ∧
    parseJsonL (("x".data) ++ ("\x7b\x7d".data) ++ ("y".data)) = none ∧
    (outerBraceStrategy (("x".data) ++ ("\x7b\x7d".data) ++ ("y".data))
        = some (JsVal.obj []) ∧
      salvage (("x".data) ++ ("\x7b\x7d".data) ++ ("y".data)) = some (JsVal.obj [])) :=
  ⟨rfl, rfl, rfl, rfl, outer_brace_recovers_embedded_object rfl rfl rfl rfl⟩
